import Mathlib

/-!
Shallow embedding of the FirestORM adapter layer (src/src/core/Model.ts,
src/src/core/Collection.ts aka QueryBuilder, src/src/core/ModelFactory.ts)
over an explicit document store.  Firestore itself is modelled as a flat
list of stored documents addressed by (collection path, document id); the
functions below are translated line by line from the TypeScript source.
-/

/-- Field values as they appear in document payloads.  `sentinelServerTimestamp`
models the opaque `serverTimestamp()` sentinel stamped by the ORM before a
write; `date t` models a concrete JS `Date` (with `t` an abstract clock value). -/
inductive FSValue where
  | null
  | boolean (b : Bool)
  | int (n : Int)
  | str (s : String)
  | date (t : Nat)
  | sentinelServerTimestamp
deriving DecidableEq, Repr

/-- IDs arrive as `string | number` in the TypeScript API. -/
inductive IdVal where
  | strId (s : String)
  | numId (n : Int)
deriving DecidableEq, Repr

/-- Model.normalizeId: `typeof id === 'number' ? id.toString() : id`. -/
def normalizeId : IdVal → String
  | .strId s => s
  | .numId n => toString n

/-- JS truthiness test used by `data.createdAt || serverTimestamp()` and
`if (!parentModel.id)`. -/
def jsFalsy : FSValue → Bool
  | .null => true
  | .boolean b => !b
  | .int n => n == 0
  | .str s => s == ""
  | .date _ => false
  | .sentinelServerTimestamp => false

/-- A JS object's own enumerable fields, in property order (JS objects keep
string-key insertion order, which `JSON.stringify` observes). -/
abbrev AttrList := List (String × FSValue)

/-- Field lookup (`obj[k]`, absent key gives `undefined`, modelled as `none`). -/
def lookupField (l : AttrList) (k : String) : Option FSValue :=
  (l.find? (fun kv => kv.1 = k)).map (·.2)

/-- Whether the object has the field at all. -/
def hasField (l : AttrList) (k : String) : Bool :=
  (lookupField l k).isSome

/-- Property write `obj[k] = v`: updates in place if the key exists,(JS keeps
its position), otherwise appends the key. -/
def setField (l : AttrList) (k : String) (v : FSValue) : AttrList :=
  if l.any (fun kv => kv.1 = k) then
    l.map (fun kv => if kv.1 = k then (k, v) else kv)
  else
    l ++ [(k, v)]

/-- Property removal `delete obj[k]`. -/
def eraseField (l : AttrList) (k : String) : AttrList :=
  l.filter (fun kv => kv.1 ≠ k)

/-- Object spread `{...a, ...b}`: keys of `a` in order with values taken from
`b` when `b` also has them, then keys only in `b`, in `b`'s order. -/
def spreadObj (a b : AttrList) : AttrList :=
  a.map (fun kv =>
    match lookupField b kv.1 with
    | some v => (kv.1, v)
    | none => kv)
  ++ b.filter (fun kv => !(a.any (fun kv2 => kv2.1 = kv.1)))

/-- One stored document: its parent collection path (e.g. `["users"]` or
`["gyms", "g1", "equipments"]` for a subcollection) plus id and payload. -/
structure StoredDoc where
  path : List String
  docId : String
  fields : AttrList
deriving DecidableEq, Repr

/-- The Firestore state: the documents plus a counter used to mint
auto-generated ids (Firestore mints random ids; we model the supply
deterministically). -/
structure World where
  docs : List StoredDoc
  nextGen : Nat
deriving DecidableEq, Repr

/-- Deterministic stand-in for Firestore's auto-generated document ids. -/
def genDocId (n : Nat) : String := "auto-id-" ++ toString n

/-- All documents directly inside one collection path. -/
def docsAt (w : World) (path : List String) : List StoredDoc :=
  w.docs.filter (fun d => d.path = path)

/-- Lookup of a single document by path and id (`getDoc`). -/
def getDocStore (w : World) (path : List String) (i : String) :
    Option StoredDoc :=
  w.docs.find? (fun d => d.path = path ∧ d.docId = i)

/-- Firestore `setDoc`: overwrites the document if present, creates it
otherwise. -/
def setDocStore (w : World) (path : List String) (i : String)
    (fields : AttrList) : World :=
  { w with docs :=
      (w.docs.filter (fun d => ¬(d.path = path ∧ d.docId = i)))
      ++ [⟨path, i, fields⟩] }

/-- Firestore `updateDoc`: fails when the target does not exist, otherwise
merges the given top-level fields into the stored payload. -/
def updateDocStore (w : World) (path : List String) (i : String)
    (data : AttrList) : Option World :=
  match getDocStore w path i with
  | none => none
  | some d =>
      some { w with docs := w.docs.map (fun d2 =>
          if d2.path = path ∧ d2.docId = i then
            ⟨path, i, data.foldl (fun acc kv => setField acc kv.1 kv.2) d.fields⟩
          else d2) }

/-- Firestore `deleteDoc`: removes the document when present; deleting a
missing document is a no-op. -/
def deleteDocStore (w : World) (path : List String) (i : String) : World :=
  { w with docs := w.docs.filter (fun d => ¬(d.path = path ∧ d.docId = i)) }

/-- ModelFactory cache configuration (`cache?: {enabled, ttl?}`). -/
structure CacheConfig where
  enabled : Bool
  ttl : Option Nat
deriving DecidableEq, Repr

/-- Resolved ORM configuration held by ModelFactory. -/
structure OrmConfig where
  timestamps : Bool
  softDeletes : Bool
  cache : CacheConfig
deriving DecidableEq, Repr

/-- ModelFactory.defaultConfig. -/
def defaultConfig : OrmConfig :=
  { timestamps := true, softDeletes := false,
    cache := { enabled := false, ttl := some 300000 } }

/-- The `Partial<OrmConfig>` argument of `ModelFactory.initialize`. -/
structure PartialOrmConfig where
  timestamps? : Option Bool := none
  softDeletes? : Option Bool := none
  cache? : Option CacheConfig := none
deriving DecidableEq, Repr

/-- ModelFactory.initialize: `this.config = { ...defaultConfig, ...config }`. -/
def initializeConfig (p : PartialOrmConfig) : OrmConfig :=
  { timestamps := p.timestamps?.getD defaultConfig.timestamps,
    softDeletes := p.softDeletes?.getD defaultConfig.softDeletes,
    cache := p.cache?.getD defaultConfig.cache }

/-- In-memory state of one Model instance: its class's collection path plus
the fields of the abstract base class (`attributes`, `original`, `exists`,
and the per-instance `timestamps` / `softDeletes` configuration, which the
source initializes to `true` / `false` regardless of the global config). -/
structure MState where
  collection : List String
  attributes : AttrList
  original : AttrList
  existsF : Bool
  timestamps : Bool
  softDeletes : Bool
deriving DecidableEq, Repr

/-- Model.fill: `this.attributes = { ...this.attributes, ...data }`. -/
def mfill (m : MState) (data : AttrList) : MState :=
  { m with attributes := spreadObj m.attributes data }

/-- Model constructor `new Model(data)`: fills `attributes` and snapshots
`original = { ...data }`; `exists` starts false, `timestamps` defaults to
true and `softDeletes` to false (a subclass may override them, hence the
parameters). -/
def mkModel (coll : List String) (instTimestamps instSoftDeletes : Bool)
    (data : AttrList) : MState :=
  { collection := coll,
    attributes := spreadObj [] data,
    original := data,
    existsF := false,
    timestamps := instTimestamps,
    softDeletes := instSoftDeletes }

/-- Model.set: `this.attributes[key] = value`. -/
def mset (m : MState) (k : String) (v : FSValue) : MState :=
  { m with attributes := setField m.attributes k v }

/-- Model.isDirty: `JSON.stringify(this.attributes) !==
JSON.stringify(this.original)`.  On our value type, with fields kept in JS
property order, stringify equality coincides with list equality. -/
def isDirty (m : MState) : Bool :=
  decide (m.attributes ≠ m.original)

/-- The `attributes.id` value, when set. -/
def idField (m : MState) : Option FSValue :=
  lookupField m.attributes "id"

/-- JS truthiness of `this.attributes.id` (used by guards like
`if (!this.exists || !this.attributes.id)`). -/
def idTruthy (m : MState) : Bool :=
  match idField m with
  | some v => !jsFalsy v
  | none => false

/-- Normalization of an id stored in `attributes.id`, mirroring
`normalizeId` (the id is `string | number` by the API types). -/
def normalizeFSId : FSValue → String
  | .str s => s
  | .int n => toString n
  | _ => ""

/-- Conversion of a `string | number` argument into an attribute value. -/
def idValToFS : IdVal → FSValue
  | .strId s => .str s
  | .numId n => .int n

/-- Errors raised or surfaced by the layer. -/
inductive OrmErr where
  | noId
  | invalidState
  | missingDoc
  | notFound
  | subcollectionNoParentId
  | callbackThrew
deriving DecidableEq, Repr

/-- Model.prepareDataForSave: copies `attributes`, strips `id`, and when the
instance's `timestamps` flag is on stamps `createdAt` (only on create,
keeping a truthy existing value: `data.createdAt = data.createdAt ||
serverTimestamp()`) and `updatedAt`. -/
def prepareDataForSave (m : MState) (isUpdate : Bool) : AttrList :=
  let data := eraseField m.attributes "id"
  if m.timestamps then
    let data :=
      if !isUpdate then
        setField data "createdAt"
          (match lookupField data "createdAt" with
           | some v => if jsFalsy v then .sentinelServerTimestamp else v
           | none => .sentinelServerTimestamp)
      else data
    setField data "updatedAt" .sentinelServerTimestamp
  else data

/-- Model.performCreate: with a preset id uses `setDoc` under the normalized
id, otherwise `addDoc` mints a fresh id which is written back into
`attributes.id`; both branches then reset `original` and mark `exists`. -/
def performCreate (w : World) (m : MState) : World × MState :=
  let dataToSave := prepareDataForSave m false
  match idField m with
  | some idv =>
      (setDocStore w m.collection (normalizeFSId idv) dataToSave,
       { m with original := m.attributes, existsF := true })
  | none =>
      let nid := genDocId w.nextGen
      let m2 := { m with attributes := setField m.attributes "id" (.str nid) }
      (setDocStore { w with nextGen := w.nextGen + 1 } m.collection nid dataToSave,
       { m2 with original := m2.attributes, existsF := true })

/-- Model.performUpdate: throws without an id, otherwise `updateDoc` with
`prepareDataForSave(true)` (failing when the document is missing) and then
resets `original`. -/
def performUpdate (w : World) (m : MState) : Except OrmErr (World × MState) :=
  match idField m with
  | none => .error .noId
  | some idv =>
      match updateDocStore w m.collection (normalizeFSId idv)
          (prepareDataForSave m true) with
      | none => .error .missingDoc
      | some w2 => .ok (w2, { m with original := m.attributes })

/-- Model.save: routes to update or create on `exists`. -/
def msave (w : World) (m : MState) : Except OrmErr (World × MState) :=
  if m.existsF then performUpdate w m else .ok (performCreate w m)

/-- Instance-level Model.update: `this.fill(data); await this.save()` — note
that the source performs no `exists`/id precondition check here. -/
def instUpdate (w : World) (m : MState) (data : AttrList) :
    Except OrmErr (World × MState) :=
  msave w (mfill m data)

/-- Model.performDelete: hard `deleteDoc` and `exists = false`. -/
def performDelete (w : World) (m : MState) : World × MState :=
  (deleteDocStore w m.collection (normalizeFSId ((idField m).getD .null)),
   { m with existsF := false })

/-- Model.performSoftDelete: stamps `deletedAt = new Date()` (the call-time
clock is the `now` parameter) and saves. -/
def performSoftDelete (now : Nat) (w : World) (m : MState) :
    Except OrmErr (World × MState) :=
  msave w (mset m "deletedAt" (.date now))

/-- Instance-level Model.delete: guarded by
`if (!this.exists || !this.attributes.id) throw`, then branches on the
instance's `softDeletes` flag. -/
def instDelete (now : Nat) (w : World) (m : MState) :
    Except OrmErr (World × MState) :=
  if !m.existsF || !idTruthy m then .error .invalidState
  else if m.softDeletes then performSoftDelete now w m
  else .ok (performDelete w m)

/-- Static Model.create: constructs the instance, optionally presets
`attributes.id` from `customId`, and saves (`exists` is false, so this is
always a create). -/
def staticCreate (w : World) (coll : List String)
    (instTimestamps instSoftDeletes : Bool) (data : AttrList)
    (customId : Option IdVal) : World × MState :=
  let instance0 := mkModel coll instTimestamps instSoftDeletes data
  let instance1 :=
    match customId with
    | some cid => { instance0 with attributes := setField instance0.attributes "id" (idValToFS cid) }
    | none => instance0
  performCreate w instance1

/-- Static Model.update(id, data): normalizes the id, strips any `id` field
from the payload, unconditionally stamps `updatedAt = serverTimestamp()`,
and issues one `updateDoc` (no prior read; fails if the target is missing). -/
def staticUpdate (w : World) (coll : List String) (i : IdVal)
    (data : AttrList) : Option World :=
  let updateData := setField (eraseField data "id") "updatedAt" .sentinelServerTimestamp
  updateDocStore w coll (normalizeId i) updateData

/-- Operators accepted by `where`. -/
inductive WhereOp where
  | eq | ne | gt | lt | ge | le | inOp | notInOp | arrayContains | arrayContainsAny
deriving DecidableEq, Repr

/-- The third argument of `where`: a scalar for comparison operators, an
array for `in` / `not-in`. -/
inductive QueryVal where
  | scalar (v : FSValue)
  | arr (vs : List FSValue)
deriving DecidableEq, Repr

/-- One accumulated query constraint (the entries of
`QueryBuilder.constraints`); cursor snapshots are identified by document id. -/
inductive Constraint where
  | whereC (field : String) (op : WhereOp) (value : QueryVal)
  | orderByC (field : String) (asc : Bool)
  | limitC (n : Nat)
  | startAfterC (cursorId : String)
  | endBeforeC (cursorId : String)
deriving DecidableEq, Repr

/-- Firestore's cross-type ordering rank (null < bool < number < date < string;
the write-time sentinel never participates in a stored comparison). -/
def fsRank : FSValue → Nat
  | .null => 0
  | .boolean _ => 1
  | .int _ => 2
  | .date _ => 3
  | .str _ => 4
  | .sentinelServerTimestamp => 5

/-- Total comparison on stored values. -/
def fsCmp (a b : FSValue) : Ordering :=
  match a, b with
  | .boolean x, .boolean y => compare x y
  | .int x, .int y => compare x y
  | .date x, .date y => compare x y
  | .str x, .str y => compare x y
  | _, _ => compare (fsRank a) (fsRank b)

/-- Evaluation of one `where` operator on a document field value (range
operators only match values of the same type, as in Firestore; array fields
are not representable in this model, so the array-membership operators on a
scalar field are false). -/
def evalWhereOp (fieldVal : FSValue) (op : WhereOp) (qv : QueryVal) : Bool :=
  match op, qv with
  | .eq, .scalar v => fieldVal == v
  | .ne, .scalar v => fieldVal != v
  | .gt, .scalar v => fsRank fieldVal == fsRank v && fsCmp fieldVal v == .gt
  | .lt, .scalar v => fsRank fieldVal == fsRank v && fsCmp fieldVal v == .lt
  | .ge, .scalar v => fsRank fieldVal == fsRank v && fsCmp fieldVal v != .lt
  | .le, .scalar v => fsRank fieldVal == fsRank v && fsCmp fieldVal v != .gt
  | .inOp, .arr vs => vs.contains fieldVal
  | .notInOp, .arr vs => !vs.contains fieldVal
  | _, _ => false

/-- Whether a document passes one constraint (non-filter constraints do not
exclude documents at this stage). -/
def matchesConstraint (d : StoredDoc) : Constraint → Bool
  | .whereC f op v =>
      match lookupField d.fields f with
      | some fv => evalWhereOp fv op v
      | none => false
  | _ => true

/-- The accumulated `orderBy` keys, in order. -/
def orderSpecs (cs : List Constraint) : List (String × Bool) :=
  cs.filterMap (fun c =>
    match c with
    | .orderByC f asc => some (f, asc)
    | _ => none)

/-- The effective row limit: in the Firestore SDK each `limit()` constraint
replaces the previous one, so the last wins. -/
def lastLimit (cs : List Constraint) : Option Nat :=
  (cs.filterMap (fun c =>
    match c with
    | .limitC n => some n
    | _ => none)).getLast?

/-- The effective start bound (last `startAfter` wins, as in the SDK). -/
def lastStartAfter (cs : List Constraint) : Option String :=
  (cs.filterMap (fun c =>
    match c with
    | .startAfterC i => some i
    | _ => none)).getLast?

/-- The effective end bound (last `endBefore` wins). -/
def lastEndBefore (cs : List Constraint) : Option String :=
  (cs.filterMap (fun c =>
    match c with
    | .endBeforeC i => some i
    | _ => none)).getLast?

/-- Firestore drops documents missing any `orderBy` field. -/
def hasOrderFields (specs : List (String × Bool)) (d : StoredDoc) : Bool :=
  specs.all (fun s => hasField d.fields s.1)

/-- Flip of an ordering for `desc` sort keys. -/
def ordFlip : Ordering → Ordering
  | .lt => .gt
  | .gt => .lt
  | .eq => .eq

/-- Lexicographic code-point comparison of ids (String order, spelled out
on the character lists so that it evaluates inside the kernel). -/
def strLeB : List Char → List Char → Bool
  | [], _ => true
  | _ :: _, [] => false
  | a :: as, b :: bs =>
      if a.val < b.val then true
      else if b.val < a.val then false
      else strLeB as bs

/-- Document comparison under the accumulated sort keys, with the document
id as the final tiebreaker (Firestore's implicit `__name__` key); with no
`orderBy`, results come back in id order. -/
def docLe (specs : List (String × Bool)) (d1 d2 : StoredDoc) : Bool :=
  match specs with
  | [] => strLeB d1.docId.data d2.docId.data
  | (f, asc) :: rest =>
      let c := fsCmp ((lookupField d1.fields f).getD .null)
                     ((lookupField d2.fields f).getD .null)
      match if asc then c else ordFlip c with
      | .lt => true
      | .gt => false
      | .eq => docLe rest d1 d2

/-- Ordered insertion for the sort below. -/
def insertSorted (le : StoredDoc → StoredDoc → Bool) (d : StoredDoc) :
    List StoredDoc → List StoredDoc
  | [] => [d]
  | x :: xs => if le d x then d :: x :: xs else x :: insertSorted le d xs

/-- Insertion sort of the matching documents. -/
def sortDocs (le : StoredDoc → StoredDoc → Bool) :
    List StoredDoc → List StoredDoc
  | [] => []
  | x :: xs => insertSorted le x (sortDocs le xs)

/-- Documents strictly after the cursor document in query order
(`startAfter`). -/
def afterDoc (cid : String) (l : List StoredDoc) : List StoredDoc :=
  match l.dropWhile (fun d => d.docId ≠ cid) with
  | [] => []
  | _ :: rest => rest

/-- Documents strictly before the cursor document (`endBefore`). -/
def beforeDoc (cid : String) (l : List StoredDoc) : List StoredDoc :=
  l.takeWhile (fun d => d.docId ≠ cid)

/-- Query execution pipeline: `where` filters, then ordering, then cursor
bounds, then the effective limit. -/
def runQuery (cs : List Constraint) (l : List StoredDoc) : List StoredDoc :=
  let filtered := l.filter (fun d =>
    cs.all (matchesConstraint d) && hasOrderFields (orderSpecs cs) d)
  let sorted := sortDocs (docLe (orderSpecs cs)) filtered
  let cut1 :=
    match lastStartAfter cs with
    | some c => afterDoc c sorted
    | none => sorted
  let cut2 :=
    match lastEndBefore cs with
    | some c => beforeDoc c cut1
    | none => cut1
  match lastLimit cs with
  | some n => cut2.take n
  | none => cut2

/-- Result-shape mapping `{ id: doc.id, ...doc.data() }` used by every read
path (a payload field literally named `id` would override the first entry,
exactly as the spread does). -/
def docToJSON (d : StoredDoc) : AttrList :=
  spreadObj [("id", .str d.docId)] d.fields

/-- QueryBuilder.get: one read of the constrained query, id-merged JSON. -/
def qbGet (w : World) (path : List String) (cs : List Constraint) :
    List AttrList :=
  (runQuery cs (docsAt w path)).map docToJSON

/-- QueryBuilder.first: `this.limit(1)` (pushed onto the SAME builder, which
is why the second component returns the builder's grown constraint list),
then `get()`, then `results[0] || null`. -/
def qbFirst (w : World) (path : List String) (cs : List Constraint) :
    Option AttrList × List Constraint :=
  let cs2 := cs ++ [.limitC 1]
  ((qbGet w path cs2).head?, cs2)

/-- QueryBuilder.destroy(id): one unconditional `deleteDoc`; no soft-delete
branch exists on this path. -/
def qbDestroy (w : World) (path : List String) (i : String) : World :=
  deleteDocStore w path i

/-- QueryBuilder.create: spreads the data, strips `id`, unconditionally
stamps `createdAt = createdAt || new Date()` and `updatedAt = new Date()`
(the call-time clock is `now`; no timestamps flag is consulted on this
path), then `setDoc` under a truthy custom id or `addDoc` otherwise, and
returns `{ id: docId, ...dataToSave }`. -/
def qbCreate (w : World) (path : List String) (data : AttrList)
    (customId : Option String) (now : Nat) : World × AttrList :=
  let dataToSave := eraseField data "id"
  let dataToSave := setField dataToSave "createdAt"
    (match lookupField dataToSave "createdAt" with
     | some v => if jsFalsy v then .date now else v
     | none => .date now)
  let dataToSave := setField dataToSave "updatedAt" (.date now)
  match customId with
  | some cid =>
      if cid = "" then
        (setDocStore { w with nextGen := w.nextGen + 1 } path (genDocId w.nextGen) dataToSave,
         spreadObj [("id", .str (genDocId w.nextGen))] dataToSave)
      else
        (setDocStore w path cid dataToSave,
         spreadObj [("id", .str cid)] dataToSave)
  | none =>
      (setDocStore { w with nextGen := w.nextGen + 1 } path (genDocId w.nextGen) dataToSave,
       spreadObj [("id", .str (genDocId w.nextGen))] dataToSave)

/-- QueryBuilder.update: strips `id` from the payload, unconditionally
stamps `updatedAt = new Date()`, and issues one `updateDoc` (failing when
the target is missing; no timestamps flag is consulted on this path). -/
def qbUpdate (w : World) (path : List String) (i : String) (data : AttrList)
    (now : Nat) : Option World :=
  updateDocStore w path i (setField (eraseField data "id") "updatedAt" (.date now))

/-- The id a JSON row is deleted under (`doc(collectionRef, docData.id)`). -/
def jsonDocId (j : AttrList) : String :=
  normalizeFSId ((lookupField j "id").getD .null)

/-- Slicing `docs.slice(i, i + 500)` for successive `i`: the chunks of the
deleteAll loop. -/
def chunksOf500 {α : Type} : List α → List (List α)
  | [] => []
  | x :: xs => ((x :: xs).take 500) :: chunksOf500 ((x :: xs).drop 500)
termination_by l => l.length
decreasing_by simp [List.length_drop]; omega

/-- One committed delete batch of deleteAll. -/
def commitDeleteBatch (w : World) (path : List String)
    (chunk : List AttrList) : World :=
  chunk.foldl (fun aw j => deleteDocStore aw path (jsonDocId j)) w

/-- QueryBuilder.deleteAll: re-fetches the matching documents, returns 0
with no batch when none match, otherwise deletes them in sequential batches
of at most 500 and sums the chunk sizes; the result also reports the chunks
(the committed rounds) for the batch-count properties. -/
def qbDeleteAll (w : World) (path : List String) (cs : List Constraint) :
    World × Nat × List (List AttrList) :=
  let docsJ := qbGet w path cs
  if docsJ.isEmpty then (w, 0, [])
  else
    let chunks := chunksOf500 docsJ
    (chunks.foldl (fun aw c => commitDeleteBatch aw path c) w,
     chunks.foldl (fun n c => n + c.length) 0,
     chunks)

/-- Result shape of simplePaginate (cursors are document ids; the JS
`docs[docs.length - 1]` on an empty page is `undefined`, which the next
call's `if (cursor)` treats the same as no cursor — modelled as `none`). -/
structure SimplePaginateResult where
  data : List AttrList
  nextCursor : Option String
  hasMorePages : Bool
deriving DecidableEq, Repr

/-- QueryBuilder.simplePaginate: over-fetches `perPage + 1` rows past the
cursor, trims the extra row, and reports the cursor for the next page. -/
def simplePaginate (w : World) (path : List String) (cs : List Constraint)
    (perPage : Nat) (cursor : Option String) : SimplePaginateResult :=
  let paginated := cs ++ [.limitC (perPage + 1)]
    ++ (match cursor with
        | some c => [.startAfterC c]
        | none => [])
  let snapshotDocs := runQuery paginated (docsAt w path)
  let hasMorePages := decide (snapshotDocs.length > perPage)
  let docs := if hasMorePages then snapshotDocs.take perPage else snapshotDocs
  { data := docs.map docToJSON,
    nextCursor := if hasMorePages then docs.getLast?.map (·.docId) else none,
    hasMorePages := hasMorePages }

/-- Repeated chained simplePaginate calls (`fuel` bounds the recursion; the
chain stops as soon as `hasMorePages` is false, feeding each `nextCursor`
into the next call). -/
def spChain (w : World) (path : List String) (cs : List Constraint)
    (perPage : Nat) : Nat → Option String → List AttrList
  | 0, _ => []
  | fuel + 1, cursor =>
      let r := simplePaginate w path cs perPage cursor
      if r.hasMorePages then r.data ++ spChain w path cs perPage fuel r.nextCursor
      else r.data

/-- Network operations against the store, for the I/O-timing properties. -/
inductive IOEvent where
  | readQuery (path : List String)
  | writeSet (path : List String) (i : String)
  | writeUpdate (path : List String) (i : String)
  | writeDelete (path : List String) (i : String)
deriving DecidableEq, Repr

/-- Whether an event is a storage write. -/
def IOEvent.isWrite : IOEvent → Bool
  | .readQuery _ => false
  | _ => true

/-- One call the transaction callback makes on its TransactionContext.  The
callback itself is arbitrary user code; a script lists the context calls it
performs, in order, before either returning or throwing. -/
inductive CtxAction where
  | createA (coll : List String) (instTimestamps instSoftDeletes : Bool)
      (data : AttrList) (customId : Option IdVal)
  | updateByIdA (coll : List String) (i : IdVal) (data : AttrList)
  | updateInstA (m : MState) (data : AttrList)
  | deleteByIdA (coll : List String) (i : IdVal)
  | deleteInstA (m : MState)
  | deleteSubA (parent : MState) (name : String)
deriving DecidableEq, Repr

/-- Queued operation descriptors (the entries of
`TransactionContext.operations`). -/
inductive TOp where
  | createOp (m : MState)
  | updateByIdOp (coll : List String) (i : IdVal) (data : AttrList)
  | updateInstOp (m : MState)
  | deleteByIdOp (coll : List String) (i : IdVal)
  | deleteInstOp (m : MState)
  | deleteSubOp (parent : MState) (name : String) (snapshotDocs : List AttrList)
deriving DecidableEq, Repr

/-- The subcollection path `<parentCollection>/<normalizedParentId>/<name>`. -/
def subPathOf (parent : MState) (name : String) : List String :=
  parent.collection ++ [normalizeFSId ((idField parent).getD .null), name]

/-- Enqueue of one context call.  `create`/`update`/`delete` only push a
descriptor (the instance variants also `fill` the in-memory instance);
`deleteSubcollection` throws without a truthy parent id and otherwise READS
the whole subcollection at queue time to snapshot the child rows. -/
def enqueueAction (w : World) (a : CtxAction) :
    Except OrmErr (TOp × List IOEvent) :=
  match a with
  | .createA coll ts sd data cid =>
      let inst := mkModel coll ts sd data
      let inst :=
        match cid with
        | some c => { inst with attributes := setField inst.attributes "id" (idValToFS c) }
        | none => inst
      .ok (.createOp inst, [])
  | .updateByIdA coll i data => .ok (.updateByIdOp coll i data, [])
  | .updateInstA m data => .ok (.updateInstOp (mfill m data), [])
  | .deleteByIdA coll i => .ok (.deleteByIdOp coll i, [])
  | .deleteInstA m => .ok (.deleteInstOp m, [])
  | .deleteSubA p name =>
      if !idTruthy p then .error .subcollectionNoParentId
      else
        let subPath := subPathOf p name
        .ok (.deleteSubOp p name (qbGet w subPath []),
             [.readQuery subPath])

/-- Sequential enqueue of a whole script (the store is not written during
this phase, so every read sees the same world). -/
def enqueueScript (w : World) :
    List CtxAction → Option OrmErr × List TOp × List IOEvent
  | [] => (none, [], [])
  | a :: rest =>
      match enqueueAction w a with
      | .error e => (some e, [], [])
      | .ok (op, ev) =>
          match enqueueScript w rest with
          | (err, ops, evs) => (err, op :: ops, ev ++ evs)

/-- Replay of one queued operation inside the Firestore transaction.
Mirrors the `for (const op of operations)` body of `Model.transaction`:
creates use `set` (minting an id when none was preset), id-based updates
strip `id` and stamp `updatedAt`, instance updates use
`prepareDataForSave(true)`, deletes are unconditional, and a
`deleteSubcollection` entry deletes exactly the child rows snapshotted at
queue time. -/
def replayOp (w : World) (op : TOp) : Except OrmErr (World × List IOEvent) :=
  match op with
  | .createOp m =>
      let dataToSave := prepareDataForSave m false
      match idField m with
      | some idv =>
          let nid := normalizeFSId idv
          .ok (setDocStore w m.collection nid dataToSave,
               [.writeSet m.collection nid])
      | none =>
          let nid := genDocId w.nextGen
          .ok (setDocStore { w with nextGen := w.nextGen + 1 } m.collection nid dataToSave,
               [.writeSet m.collection nid])
  | .updateByIdOp coll i data =>
      let nid := normalizeId i
      let updateData := setField (eraseField data "id") "updatedAt" .sentinelServerTimestamp
      match updateDocStore w coll nid updateData with
      | none => .error .missingDoc
      | some w2 => .ok (w2, [.writeUpdate coll nid])
  | .updateInstOp m =>
      match idField m with
      | none => .error .noId
      | some idv =>
          let nid := normalizeFSId idv
          match updateDocStore w m.collection nid (prepareDataForSave m true) with
          | none => .error .missingDoc
          | some w2 => .ok (w2, [.writeUpdate m.collection nid])
  | .deleteByIdOp coll i =>
      .ok (deleteDocStore w coll (normalizeId i),
           [.writeDelete coll (normalizeId i)])
  | .deleteInstOp m =>
      match idField m with
      | none => .error .noId
      | some idv =>
          .ok (deleteDocStore w m.collection (normalizeFSId idv),
               [.writeDelete m.collection (normalizeFSId idv)])
  | .deleteSubOp parent name snap =>
      let subPath := subPathOf parent name
      .ok (snap.foldl (fun aw j => deleteDocStore aw subPath (jsonDocId j)) w,
           snap.map (fun j => .writeDelete subPath (jsonDocId j)))

/-- Replay of the whole queue, in enqueue order; any failure aborts the
transaction as a whole, so the caller keeps the pre-transaction world. -/
def replayOps (w : World) : List TOp → Except OrmErr (World × List IOEvent)
  | [] => .ok (w, [])
  | op :: rest =>
      match replayOp w op with
      | .error e => .error e
      | .ok (w2, ev) =>
          match replayOps w2 rest with
          | .error e => .error e
          | .ok (w3, evs) => .ok (w3, ev ++ evs)

/-- A transaction callback abstracted as the context calls it performs and
whether it then throws instead of returning. -/
structure TxScript where
  actions : List CtxAction
  throws : Bool
deriving DecidableEq, Repr

/-- Model.transaction: run the callback to completion first (collecting the
queue, with `deleteSubcollection` reads against the live store), and only
then replay the queue inside `runTransaction`.  A callback throw (or an
enqueue-time throw, or a replay failure) rejects the call and commits
nothing: the resulting world is the input world. -/
def transactionRun (w : World) (s : TxScript) :
    Option OrmErr × World × List IOEvent :=
  match enqueueScript w s.actions with
  | (some e, _, enqTrace) => (some e, w, enqTrace)
  | (none, ops, enqTrace) =>
      if s.throws then (some .callbackThrew, w, enqTrace)
      else
        match replayOps w ops with
        | .error e => (some e, w, enqTrace)
        | .ok (w2, repTrace) => (none, w2, enqTrace ++ repTrace)

/-- One call the batch callback makes on its BatchContext (BatchContext has
no `deleteSubcollection`). -/
inductive BatchAction where
  | createB (coll : List String) (instTimestamps instSoftDeletes : Bool)
      (data : AttrList) (customId : Option IdVal)
  | updateByIdB (coll : List String) (i : IdVal) (data : AttrList)
  | updateInstB (m : MState) (data : AttrList)
  | deleteByIdB (coll : List String) (i : IdVal)
  | deleteInstB (m : MState)
deriving DecidableEq, Repr

/-- BatchContext enqueue: pushes a descriptor, touching no storage at all. -/
def batchEnqueue : BatchAction → TOp
  | .createB coll ts sd data cid =>
      let inst := mkModel coll ts sd data
      let inst :=
        match cid with
        | some c => { inst with attributes := setField inst.attributes "id" (idValToFS c) }
        | none => inst
      .createOp inst
  | .updateByIdB coll i data => .updateByIdOp coll i data
  | .updateInstB m data => .updateInstOp (mfill m data)
  | .deleteByIdB coll i => .deleteByIdOp coll i
  | .deleteInstB m => .deleteInstOp m

/-- A batch callback abstracted the same way as a transaction callback. -/
structure BatchScript where
  actions : List BatchAction
  throws : Bool
deriving DecidableEq, Repr

/-- Model.batch: the callback runs first (its enqueues perform no I/O at
all), the queue replays into one `writeBatch` afterwards; the per-operation
replay bodies are the same as the transaction's, so `replayOps` is shared. -/
def batchRun (w : World) (s : BatchScript) :
    Option OrmErr × World × List IOEvent :=
  let ops := s.actions.map batchEnqueue
  if s.throws then (some .callbackThrew, w, [])
  else
    match replayOps w ops with
    | .error e => (some e, w, [])
    | .ok (w2, tr) => (none, w2, tr)

/-- The writes an operation performs, read off the descriptor alone; this is
the replay trace for any queue whose creates carry preset ids. -/
def opStaticWrites : TOp → List IOEvent
  | .createOp m => [.writeSet m.collection (normalizeFSId ((idField m).getD .null))]
  | .updateByIdOp coll i _ => [.writeUpdate coll (normalizeId i)]
  | .updateInstOp m => [.writeUpdate m.collection (normalizeFSId ((idField m).getD .null))]
  | .deleteByIdOp coll i => [.writeDelete coll (normalizeId i)]
  | .deleteInstOp m => [.writeDelete m.collection (normalizeFSId ((idField m).getD .null))]
  | .deleteSubOp parent name snap =>
      snap.map (fun j => .writeDelete (subPathOf parent name) (jsonDocId j))

/-- Whether a queued create has a preset id (auto-id creates mint their
write target only during replay). -/
def opHasPresetId : TOp → Bool
  | .createOp m => (idField m).isSome
  | _ => true

/-- Example store: five user documents in id order. -/
def exUsersWorld : World :=
  ⟨[⟨["users"], "a", [("x", .int 1)]⟩,
    ⟨["users"], "b", [("x", .int 2)]⟩,
    ⟨["users"], "c", [("x", .int 3)]⟩,
    ⟨["users"], "d", [("x", .int 4)]⟩,
    ⟨["users"], "e", [("x", .int 5)]⟩], 0⟩

/-- Example loaded parent instance for subcollection operations. -/
def exGymParent : MState :=
  { collection := ["gyms"],
    attributes := [("id", .str "g1")],
    original := [("id", .str "g1")],
    existsF := true, timestamps := true, softDeletes := false }

/-- Example store with a parent document, two subcollection rows and one
user row. -/
def exGymWorld : World :=
  ⟨[⟨["gyms"], "g1", []⟩,
    ⟨["gyms", "g1", "items"], "i1", []⟩,
    ⟨["gyms", "g1", "items"], "i2", []⟩,
    ⟨["users"], "u1", [("n", .int 0)]⟩], 0⟩

/-- Example instance that carries an id but has `exists == false`. -/
def exNoExist : MState :=
  { collection := ["users"],
    attributes := [("id", .str "u1"), ("name", .str "A")],
    original := [("id", .str "u1"), ("name", .str "A")],
    existsF := false, timestamps := true, softDeletes := false }

/-- Example freshly created instance (`Model.create` on an empty store). -/
def exCreatedPair : World × MState :=
  staticCreate ⟨[], 0⟩ ["users"] true false [("name", .str "A")] (some (.strId "u1"))

/-- Example persisted instance whose subclass enables soft deletes. -/
def exSoftInst : MState :=
  { collection := ["users"],
    attributes := [("id", .str "u1"), ("n", .int 0)],
    original := [("id", .str "u1"), ("n", .int 0)],
    existsF := true, timestamps := true, softDeletes := true }

/-- Example world after the P8 update on document `a`. -/
def exUpdatedWorld : World :=
  (staticUpdate exUsersWorld ["users"] (.strId "a")
    [("id", .str "other"), ("name", .str "x")]).getD ⟨[], 0⟩

theorem lookupField_cons (k1 : String) (v1 : FSValue) (t : AttrList) (k : String) :
    lookupField ((k1, v1) :: t) k = if k1 = k then some v1 else lookupField t k := by
  by_cases h : k1 = k <;> simp [lookupField, List.find?_cons, h]

theorem eraseField_cons (k1 : String) (v1 : FSValue) (t : AttrList) (k : String) :
    eraseField ((k1, v1) :: t) k =
      if k1 = k then eraseField t k else (k1, v1) :: eraseField t k := by
  by_cases h : k1 = k <;> simp [eraseField, List.filter_cons, h]

theorem map_set_lookup_self (k : String) (v : FSValue) :
    ∀ l : AttrList, l.any (fun kv => kv.1 = k) = true →
    lookupField (l.map (fun kv => if kv.1 = k then (k, v) else kv)) k = some v := by
  intro l
  induction l with
  | nil => simp
  | cons hd tl ih =>
      rcases hd with ⟨k1, v1⟩
      intro h
      by_cases hk : k1 = k
      · simp [hk, lookupField_cons]
      · have h2 : tl.any (fun kv => kv.1 = k) = true := by
          simpa [List.any_cons, hk] using h
        simpa [hk, lookupField_cons] using ih h2

theorem map_set_lookup_ne (k k2 : String) (v : FSValue) (h : k ≠ k2) :
    ∀ l : AttrList,
    lookupField (l.map (fun kv => if kv.1 = k2 then (k2, v) else kv)) k = lookupField l k := by
  intro l
  induction l with
  | nil => simp
  | cons hd tl ih =>
      rcases hd with ⟨k1, v1⟩
      by_cases hk : k1 = k2
      · have hne : ¬(k2 = k) := Ne.symm h
        have hne2 : ¬(k1 = k) := by rw [hk]; exact hne
        simp [hk, lookupField_cons, hne, hne2, ih]
      · by_cases hdk : k1 = k
        · simp [hk, lookupField_cons, hdk, h]
        · simp [hk, lookupField_cons, hdk, ih]

theorem append_single_lookup_self (k : String) (v : FSValue) (l : AttrList)
    (h : l.any (fun kv => kv.1 = k) = false) :
    lookupField (l ++ [(k, v)]) k = some v := by
  induction l with
  | nil => simp [lookupField_cons]
  | cons hd tl ih =>
      rcases hd with ⟨k1, v1⟩
      simp only [List.any_cons, Bool.or_eq_false_iff] at h
      have hk : ¬(k1 = k) := by simpa using h.1
      simpa [lookupField_cons, hk] using ih h.2

theorem append_single_lookup_ne (k k2 : String) (v : FSValue) (h : k ≠ k2)
    (l : AttrList) :
    lookupField (l ++ [(k2, v)]) k = lookupField l k := by
  induction l with
  | nil =>
      have hne : ¬(k2 = k) := Ne.symm h
      simp [lookupField_cons, lookupField, hne]
  | cons hd tl ih =>
      rcases hd with ⟨k1, v1⟩
      by_cases hk : k1 = k
      · simp [lookupField_cons, hk]
      · simp [lookupField_cons, hk, ih]

theorem lookupField_setField_self (l : AttrList) (k : String) (v : FSValue) :
    lookupField (setField l k v) k = some v := by
  by_cases h : l.any (fun kv => kv.1 = k) = true
  · unfold setField
    rw [if_pos h]
    exact map_set_lookup_self k v l h
  · unfold setField
    rw [if_neg h]
    rw [Bool.not_eq_true] at h
    exact append_single_lookup_self k v l h

theorem lookupField_setField_ne (l : AttrList) (k k2 : String) (v : FSValue)
    (h : k ≠ k2) : lookupField (setField l k2 v) k = lookupField l k := by
  by_cases h2 : l.any (fun kv => kv.1 = k2) = true
  · unfold setField
    rw [if_pos h2]
    exact map_set_lookup_ne k k2 v h l
  · unfold setField
    rw [if_neg h2]
    exact append_single_lookup_ne k k2 v h l

theorem lookupField_eraseField_self (l : AttrList) (k : String) :
    lookupField (eraseField l k) k = none := by
  induction l with
  | nil => simp [eraseField, lookupField]
  | cons hd tl ih =>
      rcases hd with ⟨k1, v1⟩
      by_cases hk : k1 = k
      · simp [eraseField_cons, hk, ih]
      · simp [eraseField_cons, hk, lookupField_cons, ih]

theorem lookupField_eraseField_ne (l : AttrList) (k k2 : String) (h : k ≠ k2) :
    lookupField (eraseField l k2) k = lookupField l k := by
  induction l with
  | nil => simp [eraseField]
  | cons hd tl ih =>
      rcases hd with ⟨k1, v1⟩
      by_cases hk : k1 = k2
      · have hne2 : ¬(k1 = k) := by rw [hk]; exact Ne.symm h
        simp [eraseField_cons, hk, lookupField_cons, hne2, Ne.symm h, ih]
      · by_cases hdk : k1 = k
        · simp [eraseField_cons, hk, lookupField_cons, hdk, h]
        · simp [eraseField_cons, hk, lookupField_cons, hdk, ih]

theorem lookupField_foldl_setField_not_mem (entries : AttrList) (acc : AttrList)
    (k : String) (h : ∀ kv ∈ entries, kv.1 ≠ k) :
    lookupField (entries.foldl (fun a kv => setField a kv.1 kv.2) acc) k
      = lookupField acc k := by
  induction entries generalizing acc with
  | nil => simp
  | cons hd tl ih =>
      have h1 : hd.1 ≠ k := h hd (List.mem_cons_self _ _)
      have h2 : ∀ kv ∈ tl, kv.1 ≠ k := fun kv hkv => h kv (List.mem_cons_of_mem _ hkv)
      simp only [List.foldl_cons]
      rw [ih (setField acc hd.1 hd.2) h2]
      exact lookupField_setField_ne acc k hd.1 hd.2 (Ne.symm h1)

theorem lookupField_foldl_setField_mem (entries : AttrList) (acc : AttrList)
    (k : String) (v : FSValue) :
    (entries.map (fun kv => kv.1)).Nodup →
    lookupField entries k = some v →
    lookupField (entries.foldl (fun a kv => setField a kv.1 kv.2) acc) k
      = some v := by
  induction entries generalizing acc with
  | nil =>
      intro _ h
      simp [lookupField] at h
  | cons hd tl ih =>
      intro hnd h
      rcases hd with ⟨k1, v1⟩
      have hnd2 : (∀ (x : FSValue), (k1, x) ∉ tl) ∧ (tl.map (fun kv => kv.1)).Nodup := by
        simpa using hnd
      by_cases hk : k1 = k
      · subst hk
        rw [lookupField_cons, if_pos rfl] at h
        have hnotin : ∀ kv ∈ tl, kv.1 ≠ k1 := by
          intro kv hkv heq
          have hkv2 : (k1, kv.2) = kv := by rw [← heq]
          exact hnd2.1 kv.2 (hkv2 ▸ hkv)
        simp only [List.foldl_cons]
        rw [lookupField_foldl_setField_not_mem tl _ k1 hnotin]
        rw [lookupField_setField_self]
        exact congrArg _ (Option.some.inj h)
      · rw [lookupField_cons, if_neg hk] at h
        simp only [List.foldl_cons]
        exact ih _ hnd2.2 h

theorem keys_setField_of_any (l : AttrList) (k : String) (v : FSValue)
    (h : l.any (fun kv => kv.1 = k) = true) :
    (setField l k v).map (fun kv => kv.1) = l.map (fun kv => kv.1) := by
  unfold setField
  rw [if_pos h, List.map_map]
  apply List.map_congr_left
  intro kv _
  by_cases hk : kv.1 = k
  · simp [hk]
  · simp [hk]

theorem nodup_keys_setField (l : AttrList) (k : String) (v : FSValue)
    (h : (l.map (fun kv => kv.1)).Nodup) :
    ((setField l k v).map (fun kv => kv.1)).Nodup := by
  by_cases ha : l.any (fun kv => kv.1 = k) = true
  · rw [keys_setField_of_any l k v ha]
    exact h
  · unfold setField
    rw [if_neg ha]
    rw [Bool.not_eq_true] at ha
    rw [List.map_append]
    refine List.Nodup.append h (by simp) ?_
    intro x hx hx2
    simp only [List.map_cons, List.map_nil, List.mem_singleton] at hx2
    subst hx2
    rcases List.mem_map.mp hx with ⟨kv, hkv, hkeq⟩
    have := List.any_eq_false.mp ha kv hkv
    simp [hkeq] at this

theorem nodup_keys_eraseField (l : AttrList) (k : String)
    (h : (l.map (fun kv => kv.1)).Nodup) :
    ((eraseField l k).map (fun kv => kv.1)).Nodup :=
  ((List.filter_sublist l).map (fun kv => kv.1)).nodup h

/-- Helper: performCreate always resets `original` to the final attributes,
so the created instance is clean. -/
theorem performCreate_clean (w : World) (m : MState) :
    isDirty (performCreate w m).2 = false := by
  unfold performCreate
  cases hid : idField m <;> simp [isDirty]

/-- C3 counterexample: an instance with `exists == false` (and an id) is
updated via instance-level `update(data)` without any InvalidState error —
the call succeeds and writes a brand-new document into the empty store. -/
theorem instance_update_without_exists_writes :
    (instUpdate ⟨[], 0⟩ exNoExist [("name", FSValue.str "B")]).isOk = true
    ∧ ((instUpdate ⟨[], 0⟩ exNoExist [("name", FSValue.str "B")]).toOption.map
        (fun r => r.1.docs.length)) = some 1 := by
  decide

/-- C3 (amended): instance `delete()` requires `exists` and a truthy id and
raises the invalid-state error otherwise (performing no write); instance
`update(data)` performs no such precondition check: with `exists == false`
it routes to create and writes a new document, and with `exists == true`
but no id it fails with the no-id error. -/
theorem instance_delete_guarded_update_unguarded :
    (∀ (now : Nat) (w : World) (m : MState),
        ¬(m.existsF = true ∧ idTruthy m = true) →
        instDelete now w m = .error .invalidState)
    ∧ (∀ (w : World) (m : MState) (data : AttrList),
        m.existsF = true → idField (mfill m data) = none →
        instUpdate w m data = .error .noId)
    ∧ (∀ (w : World) (m : MState) (data : AttrList),
        m.existsF = false →
        instUpdate w m data = .ok (performCreate w (mfill m data))) := by
  refine ⟨?_, ?_, ?_⟩
  · intro now w m h
    have hcond : (!m.existsF || !idTruthy m) = true := by
      cases hE : m.existsF
      · simp
      · cases hT : idTruthy m
        · simp
        · exact absurd ⟨hE, hT⟩ h
    simp [instDelete, hcond]
  · intro w m data hex hid
    have hex2 : (mfill m data).existsF = true := hex
    simp [instUpdate, msave, hex2, performUpdate, hid]
  · intro w m data hne
    have hne2 : (mfill m data).existsF = false := hne
    simp [instUpdate, msave, hne2]

/-- C3 witness: the amended theorem applied to the concrete `exNoExist`
instance. -/
theorem instance_delete_guarded_witness :
    (¬(exNoExist.existsF = true ∧ idTruthy exNoExist = true))
    ∧ instDelete 0 ⟨[], 0⟩ exNoExist = .error .invalidState
    ∧ exNoExist.existsF = false
    ∧ instUpdate ⟨[], 0⟩ exNoExist [("name", FSValue.str "B")]
        = .ok (performCreate ⟨[], 0⟩ (mfill exNoExist [("name", FSValue.str "B")])) :=
  ⟨by decide,
   instance_delete_guarded_update_unguarded.1 0 ⟨[], 0⟩ exNoExist (by decide),
   by decide,
   instance_delete_guarded_update_unguarded.2.2 ⟨[], 0⟩ exNoExist
     [("name", FSValue.str "B")] (by decide)⟩

/-- C5 counterexample: immediately after `create`, a `set` that writes the
same value a field already holds leaves `isDirty()` false, refuting "after
any set(key, value), isDirty() returns true". -/
theorem set_same_value_not_dirty :
    isDirty exCreatedPair.2 = false
    ∧ isDirty (mset exCreatedPair.2 "name" (.str "A")) = false := by
  decide

/-- C5 (amended): dirtiness is inequality of the current and original
attribute states; immediately after `create` the instance is clean; a `set`
that actually changes the attribute value (or adds a key) makes it dirty;
a successful `save` makes it clean again. -/
theorem dirty_tracking_lifecycle :
    (∀ (w : World) (coll : List String) (ts sd : Bool) (data : AttrList)
        (cid : Option IdVal), isDirty (staticCreate w coll ts sd data cid).2 = false)
    ∧ (∀ (m : MState) (k : String) (v : FSValue),
        isDirty m = false → lookupField m.attributes k ≠ some v →
        isDirty (mset m k v) = true)
    ∧ (∀ (w : World) (m : MState) (w2 : World) (m2 : MState),
        msave w m = .ok (w2, m2) → isDirty m2 = false) := by
  refine ⟨?_, ?_, ?_⟩
  · intro w coll ts sd data cid
    unfold staticCreate
    cases cid <;> exact performCreate_clean _ _
  · intro m k v hclean hne
    have heq : m.attributes = m.original := by
      by_contra hne2
      simp [isDirty, hne2] at hclean
    have hsetne : setField m.attributes k v ≠ m.attributes := by
      intro habs
      exact hne (by rw [← habs]; exact lookupField_setField_self m.attributes k v)
    have hfin : setField m.attributes k v ≠ m.original := heq ▸ hsetne
    simp [isDirty, mset, hfin]
  · intro w m w2 m2 hsave
    unfold msave at hsave
    by_cases hex : m.existsF = true
    · rw [if_pos hex] at hsave
      unfold performUpdate at hsave
      cases hid : idField m with
      | none =>
          simp only [hid] at hsave
          exact Except.noConfusion hsave
      | some idv =>
          simp only [hid] at hsave
          cases hupd : updateDocStore w m.collection (normalizeFSId idv)
              (prepareDataForSave m true) with
          | none =>
              simp only [hupd] at hsave
              exact Except.noConfusion hsave
          | some w3 =>
              simp only [hupd] at hsave
              have hm2 : m2 = { m with original := m.attributes } :=
                (congrArg Prod.snd (Except.ok.inj hsave)).symm
              rw [hm2]
              simp [isDirty]
    · rw [if_neg hex] at hsave
      have hpc : (w2, m2) = performCreate w m := (Except.ok.inj hsave).symm
      have hm2 : m2 = (performCreate w m).2 := congrArg Prod.snd hpc
      rw [hm2]
      exact performCreate_clean w m

/-- C5 witness: the amended lifecycle applied to concrete instances. -/
theorem dirty_tracking_witness :
    isDirty (staticCreate ⟨[], 0⟩ ["users"] true false [("name", .str "A")]
      (some (.strId "u1"))).2 = false
    ∧ (isDirty exCreatedPair.2 = false
        ∧ lookupField exCreatedPair.2.attributes "name" ≠ some (.str "B")
        ∧ isDirty (mset exCreatedPair.2 "name" (.str "B")) = true)
    ∧ (msave ⟨[], 0⟩ exNoExist
          = .ok ((performCreate ⟨[], 0⟩ exNoExist).1, (performCreate ⟨[], 0⟩ exNoExist).2)
        ∧ isDirty (performCreate ⟨[], 0⟩ exNoExist).2 = false) :=
  ⟨dirty_tracking_lifecycle.1 ⟨[], 0⟩ ["users"] true false [("name", .str "A")]
      (some (.strId "u1")),
   ⟨by decide, by decide,
    dirty_tracking_lifecycle.2.1 exCreatedPair.2 "name" (.str "B") (by decide) (by decide)⟩,
   ⟨rfl,
    dirty_tracking_lifecycle.2.2 ⟨[], 0⟩ exNoExist (performCreate ⟨[], 0⟩ exNoExist).1
      (performCreate ⟨[], 0⟩ exNoExist).2 rfl⟩⟩

/-- C4 counterexample: after `initialize` with `timestamps: false`, the
resolved config has timestamps off, yet a create through a
default-configured model instance (the config value is never propagated to
or read by any instance) still stores `createdAt`/`updatedAt` markers. -/
theorem timestamps_stamped_despite_config_off :
    (initializeConfig { timestamps? := some false }).timestamps = false
    ∧ (exCreatedPair.1.docs.map (fun d => hasField d.fields "createdAt")) = [true]
    ∧ (exCreatedPair.1.docs.map (fun d => hasField d.fields "updatedAt")) = [true] := by
  decide

/-- Helper: a document of the post-`setDoc` store that was not in the store
before is the freshly written one. -/
theorem setDocStore_new_mem (w : World) (path : List String) (i : String)
    (fields : AttrList) (d : StoredDoc)
    (hd : d ∈ (setDocStore w path i fields).docs) (hnotin : d ∉ w.docs) :
    d = ⟨path, i, fields⟩ := by
  unfold setDocStore at hd
  rcases List.mem_append.mp hd with h | h
  · exact absurd (List.mem_of_mem_filter h) hnotin
  · simpa using h

/-- Helper: a payload that just had `createdAt` and then `updatedAt` written
carries both fields. -/
theorem hasField_double_set (l : AttrList) (v1 v2 : FSValue) :
    hasField (setField (setField l "createdAt" v1) "updatedAt" v2) "createdAt" = true
    ∧ hasField (setField (setField l "createdAt" v1) "updatedAt" v2) "updatedAt" = true := by
  constructor
  · unfold hasField
    rw [lookupField_setField_ne _ _ _ _ (by decide), lookupField_setField_self]
    rfl
  · unfold hasField
    rw [lookupField_setField_self]
    rfl

/-- Helper: after a successful `updateDoc` whose payload was id-stripped and
then had `updatedAt := v` written, the target document reads `updatedAt = v`
(shared by static `Model.update` and `QueryBuilder.update`). -/
theorem updateDoc_stamps_updatedAt (w : World) (path : List String)
    (i : String) (data : AttrList) (v : FSValue) (w2 : World)
    (hnd : (data.map (fun kv => kv.1)).Nodup)
    (hupd : updateDocStore w path i
      (setField (eraseField data "id") "updatedAt" v) = some w2) :
    ∀ d ∈ w2.docs, d.path = path → d.docId = i →
      lookupField d.fields "updatedAt" = some v := by
  intro d hd hpath hid
  unfold updateDocStore at hupd
  cases hfind : getDocStore w path i with
  | none =>
      simp only [hfind] at hupd
      exact Option.noConfusion hupd
  | some d1 =>
      simp only [hfind] at hupd
      have hw2 := (Option.some.inj hupd).symm
      subst hw2
      simp only [List.mem_map] at hd
      rcases hd with ⟨d0, hd0, hged⟩
      by_cases hp : d0.path = path ∧ d0.docId = i
      · rw [if_pos hp] at hged
        subst hged
        apply lookupField_foldl_setField_mem
        · exact nodup_keys_setField _ _ _ (nodup_keys_eraseField data "id" hnd)
        · exact lookupField_setField_self _ _ _
      · rw [if_neg hp] at hged
        subst hged
        exact absurd ⟨hpath, hid⟩ hp

/-- C4 (amended): timestamp injection is governed by the per-instance
`timestamps` property (default true), not by the global configuration,
which is stored but never consulted: with the flag on, create payloads gain
`createdAt` and `updatedAt` and update payloads gain `updatedAt`; with the
flag off, the payload is exactly the attributes minus `id`.  The remaining
write paths consult no flag at all: static `update(id, data)` stamps
`updatedAt` unconditionally, `QueryBuilder.create` stores `createdAt` and
`updatedAt` on every document it writes, and `QueryBuilder.update` stamps
`updatedAt` on every update. -/
theorem timestamps_follow_instance_flag :
    (∀ m : MState, m.timestamps = true →
        hasField (prepareDataForSave m false) "createdAt" = true
        ∧ hasField (prepareDataForSave m false) "updatedAt" = true
        ∧ hasField (prepareDataForSave m true) "updatedAt" = true)
    ∧ (∀ m : MState, m.timestamps = false →
        prepareDataForSave m false = eraseField m.attributes "id"
        ∧ prepareDataForSave m true = eraseField m.attributes "id")
    ∧ (∀ (w : World) (coll : List String) (i : IdVal) (data : AttrList) (w2 : World),
        (data.map (fun kv => kv.1)).Nodup →
        staticUpdate w coll i data = some w2 →
        ∀ d ∈ w2.docs, d.path = coll → d.docId = normalizeId i →
          lookupField d.fields "updatedAt" = some .sentinelServerTimestamp)
    ∧ (∀ (w : World) (path : List String) (data : AttrList)
        (customId : Option String) (now : Nat) (d : StoredDoc),
        d ∈ (qbCreate w path data customId now).1.docs → d ∉ w.docs →
          hasField d.fields "createdAt" = true
          ∧ hasField d.fields "updatedAt" = true)
    ∧ (∀ (w : World) (path : List String) (i : String) (data : AttrList)
        (now : Nat) (w2 : World),
        (data.map (fun kv => kv.1)).Nodup →
        qbUpdate w path i data now = some w2 →
        ∀ d ∈ w2.docs, d.path = path → d.docId = i →
          lookupField d.fields "updatedAt" = some (.date now)) := by
  refine ⟨?_, ?_, ?_, ?_, ?_⟩
  · intro m hts
    have hcu : ("createdAt" : String) ≠ "updatedAt" := by decide
    refine ⟨?_, ?_, ?_⟩ <;>
      simp [prepareDataForSave, hasField, hts, lookupField_setField_self,
            lookupField_setField_ne _ _ _ _ hcu]
  · intro m hts
    constructor <;> (unfold prepareDataForSave; rw [hts]; simp)
  · intro w coll i data w2 hnd hupd
    exact updateDoc_stamps_updatedAt w coll (normalizeId i) data
      .sentinelServerTimestamp w2 hnd hupd
  · intro w path data cid now d hd hnotin
    rcases cid with _ | c
    · simp only [qbCreate] at hd
      have hnew := setDocStore_new_mem _ path (genDocId w.nextGen) _ d hd hnotin
      rw [hnew]
      exact hasField_double_set _ _ _
    · by_cases hc : c = ""
      · simp only [qbCreate, if_pos hc] at hd
        have hnew := setDocStore_new_mem _ path (genDocId w.nextGen) _ d hd hnotin
        rw [hnew]
        exact hasField_double_set _ _ _
      · simp only [qbCreate, if_neg hc] at hd
        have hnew := setDocStore_new_mem _ path c _ d hd hnotin
        rw [hnew]
        exact hasField_double_set _ _ _
  · intro w path i data now w2 hnd hupd
    exact updateDoc_stamps_updatedAt w path i data (.date now) w2 hnd hupd

/-- C4 witness: the amended theorem at a concrete instance with the flag on,
one with the flag off, a concrete static update, a concrete builder create,
and a concrete builder update. -/
theorem timestamps_follow_instance_flag_witness :
    (exNoExist.timestamps = true
        ∧ hasField (prepareDataForSave exNoExist false) "createdAt" = true)
    ∧ ({ exNoExist with timestamps := false }.timestamps = false
        ∧ prepareDataForSave { exNoExist with timestamps := false } false
            = eraseField exNoExist.attributes "id")
    ∧ ((([("id", FSValue.str "other"), ("name", FSValue.str "x")] : AttrList).map
          (fun kv => kv.1)).Nodup
        ∧ staticUpdate exUsersWorld ["users"] (.strId "a")
            [("id", FSValue.str "other"), ("name", FSValue.str "x")] = some exUpdatedWorld
        ∧ lookupField (StoredDoc.mk ["users"] "a"
            [("x", FSValue.int 1), ("name", FSValue.str "x"),
             ("updatedAt", FSValue.sentinelServerTimestamp)]).fields "updatedAt"
            = some FSValue.sentinelServerTimestamp)
    ∧ (hasField (StoredDoc.mk ["users"] "u1"
          [("name", FSValue.str "A"), ("createdAt", FSValue.date 7),
           ("updatedAt", FSValue.date 7)]).fields "createdAt" = true
        ∧ hasField (StoredDoc.mk ["users"] "u1"
          [("name", FSValue.str "A"), ("createdAt", FSValue.date 7),
           ("updatedAt", FSValue.date 7)]).fields "updatedAt" = true)
    ∧ lookupField (StoredDoc.mk ["users"] "a"
        [("x", FSValue.int 1), ("name", FSValue.str "x"),
         ("updatedAt", FSValue.date 7)]).fields "updatedAt"
        = some (FSValue.date 7) :=
  ⟨⟨by decide, (timestamps_follow_instance_flag.1 exNoExist (by decide)).1⟩,
   ⟨by decide, (timestamps_follow_instance_flag.2.1 _ (by decide)).1⟩,
   ⟨by decide, rfl,
    timestamps_follow_instance_flag.2.2.1 exUsersWorld ["users"] (.strId "a")
      [("id", FSValue.str "other"), ("name", FSValue.str "x")] exUpdatedWorld
      (by decide) rfl
      (StoredDoc.mk ["users"] "a"
        [("x", FSValue.int 1), ("name", FSValue.str "x"),
         ("updatedAt", FSValue.sentinelServerTimestamp)])
      (by decide) rfl rfl⟩,
   timestamps_follow_instance_flag.2.2.2.1 ⟨[], 0⟩ ["users"]
      [("name", FSValue.str "A")] (some "u1") 7
      (StoredDoc.mk ["users"] "u1"
        [("name", FSValue.str "A"), ("createdAt", FSValue.date 7),
         ("updatedAt", FSValue.date 7)])
      (by decide) (by decide),
   timestamps_follow_instance_flag.2.2.2.2 exUsersWorld ["users"] "a"
      [("name", FSValue.str "x")] 7
      ((qbUpdate exUsersWorld ["users"] "a" [("name", FSValue.str "x")] 7).getD ⟨[], 0⟩)
      (by decide) rfl
      (StoredDoc.mk ["users"] "a"
        [("x", FSValue.int 1), ("name", FSValue.str "x"),
         ("updatedAt", FSValue.date 7)])
      (by decide) rfl rfl⟩

/-- Helper: a limit pushed last becomes the effective limit (the SDK's last
`limit()` wins). -/
theorem lastLimit_append_limit (cs : List Constraint) (n : Nat) :
    lastLimit (cs ++ [.limitC n]) = some n := by
  unfold lastLimit
  rw [List.filterMap_append]
  simp

/-- C9: `first()` permanently appends a `limit(1)` constraint to the same
builder (one more entry), returns the head of that capped `get`, and every
later `get` on the grown constraint list returns at most one row whatever
the original constraints were. -/
theorem first_appends_limit_and_caps (w : World) (path : List String)
    (cs : List Constraint) :
    (qbFirst w path cs).2 = cs ++ [.limitC 1]
    ∧ ((qbFirst w path cs).2).length = cs.length + 1
    ∧ (qbFirst w path cs).1 = (qbGet w path (cs ++ [.limitC 1])).head?
    ∧ ∀ w2 : World, (qbGet w2 path (cs ++ [.limitC 1])).length ≤ 1 := by
  refine ⟨rfl, by simp [qbFirst], rfl, ?_⟩
  intro w2
  unfold qbGet
  rw [List.length_map]
  unfold runQuery
  rw [lastLimit_append_limit]
  simp [List.length_take]

/-- Helper: a successful enqueue emits only read events (and only
`deleteSubcollection` emits any at all). -/
theorem enqueueAction_trace_reads (w : World) (a : CtxAction) (op : TOp)
    (ev : List IOEvent) (h : enqueueAction w a = .ok (op, ev)) :
    ∀ e ∈ ev, e.isWrite = false := by
  cases a with
  | createA coll ts sd data cid =>
      cases cid <;> (simp [enqueueAction] at h; simp [h.2])
  | updateByIdA coll i data => simp [enqueueAction] at h; simp [h.2]
  | updateInstA m data => simp [enqueueAction] at h; simp [h.2]
  | deleteByIdA coll i => simp [enqueueAction] at h; simp [h.2]
  | deleteInstA m => simp [enqueueAction] at h; simp [h.2]
  | deleteSubA p name =>
      by_cases hg : (!idTruthy p) = true
      · simp [enqueueAction, hg] at h
      · simp [enqueueAction, hg] at h
        simp [← h.2, IOEvent.isWrite]

/-- Helper: the whole enqueue phase of a transaction callback performs no
storage write. -/
theorem enqueueScript_trace_reads (w : World) (actions : List CtxAction) :
    ∀ e ∈ (enqueueScript w actions).2.2, e.isWrite = false := by
  induction actions with
  | nil => simp [enqueueScript]
  | cons a rest ih =>
      cases ha : enqueueAction w a with
      | error err => simp [enqueueScript, ha]
      | ok pair =>
          rcases pair with ⟨op, ev⟩
          intro e he
          simp only [enqueueScript, ha] at he
          rcases List.mem_append.mp he with h1 | h1
          · exact enqueueAction_trace_reads w a op ev ha e h1
          · exact ih e h1

/-- C1: when the transaction callback throws (after enqueuing any sequence
of operations), `transaction()` rejects, the store is exactly the
pre-transaction store — no enqueued operation was applied — and not even a
single storage write was issued. -/
theorem transaction_throwing_callback_commits_nothing (w : World)
    (s : TxScript) (h : s.throws = true) :
    (transactionRun w s).1.isSome = true
    ∧ (transactionRun w s).2.1 = w
    ∧ ∀ e ∈ (transactionRun w s).2.2, e.isWrite = false := by
  have htr := enqueueScript_trace_reads w s.actions
  unfold transactionRun
  rcases hsplit : enqueueScript w s.actions with ⟨err, ops, tr⟩
  rw [hsplit] at htr
  cases err with
  | some e => exact ⟨rfl, rfl, htr⟩
  | none =>
      rw [h]
      exact ⟨rfl, rfl, htr⟩

/-- C1 witness: a callback that queues two updates and then throws leaves
the concrete store untouched. -/
theorem transaction_throw_witness :
    ({ actions := [CtxAction.updateByIdA ["users"] (.strId "u1") [("n", .int 5)],
                   CtxAction.updateByIdA ["users"] (.strId "u1") [("n", .int 6)]],
       throws := true } : TxScript).throws = true
    ∧ (transactionRun exGymWorld
        { actions := [CtxAction.updateByIdA ["users"] (.strId "u1") [("n", .int 5)],
                      CtxAction.updateByIdA ["users"] (.strId "u1") [("n", .int 6)]],
          throws := true }).1.isSome = true
    ∧ (transactionRun exGymWorld
        { actions := [CtxAction.updateByIdA ["users"] (.strId "u1") [("n", .int 5)],
                      CtxAction.updateByIdA ["users"] (.strId "u1") [("n", .int 6)]],
          throws := true }).2.1 = exGymWorld :=
  ⟨rfl,
   (transaction_throwing_callback_commits_nothing exGymWorld _ rfl).1,
   (transaction_throwing_callback_commits_nothing exGymWorld _ rfl).2.1⟩

/-- C2 counterexample: enqueuing a `deleteSubcollection` operation performs
storage I/O already during the callback — it reads the whole subcollection
to snapshot the child rows — so "enqueuing performs no network I/O" is
false for `deleteSubcollection`. -/
theorem deleteSubcollection_enqueue_performs_read :
    (enqueueScript exGymWorld [CtxAction.deleteSubA exGymParent "items"]).2.2
      = [IOEvent.readQuery ["gyms", "g1", "items"]]
    ∧ (enqueueScript exGymWorld [CtxAction.deleteSubA exGymParent "items"]).2.2 ≠ [] := by
  decide

/-- Helper: one successfully replayed operation emits only writes, and when
its write target is statically determined (every create carries a preset
id) the emitted writes are exactly `opStaticWrites`. -/
theorem replayOp_writes (w : World) (op : TOp) (w2 : World)
    (ev : List IOEvent) (h : replayOp w op = .ok (w2, ev)) :
    (∀ e ∈ ev, e.isWrite = true)
    ∧ (opHasPresetId op = true → ev = opStaticWrites op) := by
  cases op with
  | createOp m =>
      cases hid : idField m with
      | some idv =>
          simp only [replayOp, hid] at h
          have hev : ev = [IOEvent.writeSet m.collection (normalizeFSId idv)] :=
            (congrArg Prod.snd (Except.ok.inj h)).symm
          subst hev
          exact ⟨by simp [IOEvent.isWrite],
                 fun _ => by simp [opStaticWrites, hid]⟩
      | none =>
          simp only [replayOp, hid] at h
          have hev : ev = [IOEvent.writeSet m.collection (genDocId w.nextGen)] :=
            (congrArg Prod.snd (Except.ok.inj h)).symm
          subst hev
          refine ⟨by simp [IOEvent.isWrite], ?_⟩
          intro hpre
          simp [opHasPresetId, hid] at hpre
  | updateByIdOp coll i data =>
      cases hupd : updateDocStore w coll (normalizeId i)
          (setField (eraseField data "id") "updatedAt" .sentinelServerTimestamp) with
      | none =>
          simp only [replayOp, hupd] at h
          exact Except.noConfusion h
      | some w3 =>
          simp only [replayOp, hupd] at h
          have hev : ev = [IOEvent.writeUpdate coll (normalizeId i)] :=
            (congrArg Prod.snd (Except.ok.inj h)).symm
          subst hev
          exact ⟨by simp [IOEvent.isWrite], fun _ => by simp [opStaticWrites]⟩
  | updateInstOp m =>
      cases hid : idField m with
      | none =>
          simp only [replayOp, hid] at h
          exact Except.noConfusion h
      | some idv =>
          simp only [replayOp, hid] at h
          cases hupd : updateDocStore w m.collection (normalizeFSId idv)
              (prepareDataForSave m true) with
          | none =>
              simp only [hupd] at h
              exact Except.noConfusion h
          | some w3 =>
              simp only [hupd] at h
              have hev : ev = [IOEvent.writeUpdate m.collection (normalizeFSId idv)] :=
                (congrArg Prod.snd (Except.ok.inj h)).symm
              subst hev
              exact ⟨by simp [IOEvent.isWrite],
                     fun _ => by simp [opStaticWrites, hid]⟩
  | deleteByIdOp coll i =>
      simp only [replayOp] at h
      have hev : ev = [IOEvent.writeDelete coll (normalizeId i)] :=
        (congrArg Prod.snd (Except.ok.inj h)).symm
      subst hev
      exact ⟨by simp [IOEvent.isWrite], fun _ => by simp [opStaticWrites]⟩
  | deleteInstOp m =>
      cases hid : idField m with
      | none =>
          simp only [replayOp, hid] at h
          exact Except.noConfusion h
      | some idv =>
          simp only [replayOp, hid] at h
          have hev : ev = [IOEvent.writeDelete m.collection (normalizeFSId idv)] :=
            (congrArg Prod.snd (Except.ok.inj h)).symm
          subst hev
          exact ⟨by simp [IOEvent.isWrite], fun _ => by simp [opStaticWrites, hid]⟩
  | deleteSubOp parent name snap =>
      simp only [replayOp] at h
      have hev : ev = snap.map (fun j =>
          IOEvent.writeDelete (subPathOf parent name) (jsonDocId j)) :=
        (congrArg Prod.snd (Except.ok.inj h)).symm
      subst hev
      refine ⟨?_, fun _ => by simp [opStaticWrites]⟩
      intro e he
      rcases List.mem_map.mp he with ⟨j, _, hj⟩
      rw [← hj]
      simp [IOEvent.isWrite]

/-- Helper: a successful replay pass emits only writes, in enqueue order
(exactly the per-descriptor writes when every create has a preset id). -/
theorem replayOps_writes (ops : List TOp) :
    ∀ (w w2 : World) (tr : List IOEvent), replayOps w ops = .ok (w2, tr) →
      (∀ e ∈ tr, e.isWrite = true)
      ∧ ((∀ op ∈ ops, opHasPresetId op = true) → tr = ops.flatMap opStaticWrites) := by
  induction ops with
  | nil =>
      intro w w2 tr h
      simp only [replayOps] at h
      have htr : tr = [] := (congrArg Prod.snd (Except.ok.inj h)).symm
      subst htr
      exact ⟨by simp, fun _ => by simp⟩
  | cons op rest ih =>
      intro w w2 tr h
      simp only [replayOps] at h
      cases h1 : replayOp w op with
      | error e =>
          simp only [h1] at h
          exact Except.noConfusion h
      | ok pair =>
          rcases pair with ⟨wa, ev⟩
          simp only [h1] at h
          cases h2 : replayOps wa rest with
          | error e =>
              simp only [h2] at h
              exact Except.noConfusion h
          | ok pair2 =>
              rcases pair2 with ⟨wb, evs⟩
              simp only [h2] at h
              have htr : tr = ev ++ evs := (congrArg Prod.snd (Except.ok.inj h)).symm
              subst htr
              have hop := replayOp_writes w op wa ev h1
              have hrest := ih wa wb evs h2
              refine ⟨?_, ?_⟩
              · intro e he
                rcases List.mem_append.mp he with hh | hh
                · exact hop.1 e hh
                · exact hrest.1 e hh
              · intro hpre
                rw [List.flatMap_cons]
                rw [hop.2 (hpre op (List.mem_cons_self _ _)),
                    hrest.2 (fun o ho => hpre o (List.mem_cons_of_mem _ ho))]

/-- C2 (amended): while a transaction callback runs, enqueuing `create`,
`update` and `delete` performs no storage I/O and `deleteSubcollection`
performs only a read (its queue-time snapshot); every write happens in the
single replay pass after the callback returns, in enqueue order, and a
batch callback's enqueues perform no I/O at all. -/
theorem enqueue_no_writes_replay_writes_in_order :
    (∀ (w : World) (actions : List CtxAction) (e : IOEvent),
        e ∈ (enqueueScript w actions).2.2 → e.isWrite = false)
    ∧ (∀ (w : World) (ops : List TOp) (w2 : World) (tr : List IOEvent),
        replayOps w ops = .ok (w2, tr) →
        (∀ e ∈ tr, e.isWrite = true)
        ∧ ((∀ op ∈ ops, opHasPresetId op = true) → tr = ops.flatMap opStaticWrites))
    ∧ (∀ (w : World) (s : TxScript) (ops : List TOp) (etr : List IOEvent)
        (w2 : World) (rtr : List IOEvent),
        s.throws = false →
        enqueueScript w s.actions = (none, ops, etr) →
        replayOps w ops = .ok (w2, rtr) →
        transactionRun w s = (none, w2, etr ++ rtr))
    ∧ (∀ (w : World) (s : BatchScript), s.throws = true →
        batchRun w s = (some .callbackThrew, w, [])) := by
  refine ⟨?_, ?_, ?_, ?_⟩
  · intro w actions e he
    exact enqueueScript_trace_reads w actions e he
  · intro w ops w2 tr h
    exact replayOps_writes ops w w2 tr h
  · intro w s ops etr w2 rtr hthrow henq hrep
    unfold transactionRun
    rw [henq, hthrow]
    simp [hrep]
  · intro w s h
    unfold batchRun
    rw [h]
    rfl

/-- C2 witness: the amended theorem at concrete scripts — reads only during
enqueue, writes only during replay, replay equals the per-op writes in
order, and the batch throw case. -/
theorem enqueue_replay_witness :
    ((IOEvent.readQuery ["gyms", "g1", "items"]).isWrite = false)
    ∧ (IOEvent.writeUpdate ["users"] "u1").isWrite = true
    ∧ ([IOEvent.writeUpdate ["users"] "u1"]
        = [TOp.updateByIdOp ["users"] (.strId "u1") [("n", .int 5)]].flatMap opStaticWrites)
    ∧ transactionRun exGymWorld { actions := [], throws := false }
        = (none, exGymWorld, [])
    ∧ batchRun exGymWorld { actions := [], throws := true }
        = (some .callbackThrew, exGymWorld, []) :=
  ⟨enqueue_no_writes_replay_writes_in_order.1 exGymWorld
      [CtxAction.deleteSubA exGymParent "items"] _ (by decide),
   (enqueue_no_writes_replay_writes_in_order.2.1 exGymWorld
      [TOp.updateByIdOp ["users"] (.strId "u1") [("n", .int 5)]]
      ⟨[⟨["gyms"], "g1", []⟩,
        ⟨["gyms", "g1", "items"], "i1", []⟩,
        ⟨["gyms", "g1", "items"], "i2", []⟩,
        ⟨["users"], "u1", [("n", .int 5), ("updatedAt", .sentinelServerTimestamp)]⟩], 0⟩
      [IOEvent.writeUpdate ["users"] "u1"] rfl).1 _ (by decide),
   (enqueue_no_writes_replay_writes_in_order.2.1 exGymWorld
      [TOp.updateByIdOp ["users"] (.strId "u1") [("n", .int 5)]]
      ⟨[⟨["gyms"], "g1", []⟩,
        ⟨["gyms", "g1", "items"], "i1", []⟩,
        ⟨["gyms", "g1", "items"], "i2", []⟩,
        ⟨["users"], "u1", [("n", .int 5), ("updatedAt", .sentinelServerTimestamp)]⟩], 0⟩
      [IOEvent.writeUpdate ["users"] "u1"] rfl).2 (by decide),
   enqueue_no_writes_replay_writes_in_order.2.2.1 exGymWorld
      { actions := [], throws := false } [] [] exGymWorld [] rfl rfl rfl,
   enqueue_no_writes_replay_writes_in_order.2.2.2 exGymWorld
      { actions := [], throws := true } rfl⟩

/-- Helper: `updateDoc` rewrites one payload in place — the set of
(path, id) addresses in the store is unchanged. -/
theorem updateDocStore_pairs (w : World) (path : List String) (i : String)
    (data : AttrList) (w2 : World) (h : updateDocStore w path i data = some w2) :
    w2.docs.map (fun d => (d.path, d.docId)) = w.docs.map (fun d => (d.path, d.docId)) := by
  unfold updateDocStore at h
  cases hfind : getDocStore w path i with
  | none =>
      simp only [hfind] at h
      exact Option.noConfusion h
  | some d1 =>
      simp only [hfind] at h
      have hw2 := (Option.some.inj h).symm
      subst hw2
      show (w.docs.map _).map _ = _
      rw [List.map_map]
      apply List.map_congr_left
      intro d0 _
      by_cases hp : d0.path = path ∧ d0.docId = i
      · simp [hp]
      · simp [hp]

/-- Helper: after a successful `updateDoc`, looking up the target address
finds the in-place merged payload of the old document. -/
theorem updateDocStore_target (w : World) (path : List String) (i : String)
    (data : AttrList) (w2 : World) (d : StoredDoc)
    (h : updateDocStore w path i data = some w2)
    (hfind : getDocStore w path i = some d) :
    getDocStore w2 path i
      = some ⟨path, i, data.foldl (fun acc kv => setField acc kv.1 kv.2) d.fields⟩ := by
  unfold updateDocStore at h
  rw [hfind] at h
  have hw2 := (Option.some.inj h).symm
  subst hw2
  unfold getDocStore at hfind ⊢
  rw [List.find?_map]
  have hcong : (fun d2 => decide (d2.path = path ∧ d2.docId = i)) ∘
      (fun d2 => if d2.path = path ∧ d2.docId = i then
        (⟨path, i, data.foldl (fun acc kv => setField acc kv.1 kv.2) d.fields⟩ : StoredDoc)
      else d2)
      = fun d2 => decide (d2.path = path ∧ d2.docId = i) := by
    funext d2
    by_cases hp : d2.path = path ∧ d2.docId = i
    · rw [Function.comp_apply, if_pos hp]
      simp [hp]
    · rw [Function.comp_apply, if_neg hp]
  rw [hcong, hfind]
  have hd := List.find?_some hfind
  simp only [decide_eq_true_eq] at hd
  simp [hd]

/-- C8: static `update(id, data)` never changes any document's storage
address; the written payload never contains an `id` key and always carries
the `updatedAt` marker; and for `update(id, {id:'other', name:'x'})` the
target document keeps its id, gets `name` and `updatedAt` overwritten, and
every other field is untouched. -/
theorem static_update_strips_id (w : World) (coll : List String) (i : IdVal)
    (data : AttrList) (w2 : World) (h : staticUpdate w coll i data = some w2) :
    (w2.docs.map (fun d => (d.path, d.docId)) = w.docs.map (fun d => (d.path, d.docId)))
    ∧ lookupField (setField (eraseField data "id") "updatedAt"
        .sentinelServerTimestamp) "id" = none
    ∧ (∀ d d2 : StoredDoc, data = [("id", .str "other"), ("name", .str "x")] →
        getDocStore w coll (normalizeId i) = some d →
        getDocStore w2 coll (normalizeId i) = some d2 →
        d2.docId = normalizeId i
        ∧ lookupField d2.fields "name" = some (.str "x")
        ∧ lookupField d2.fields "updatedAt" = some .sentinelServerTimestamp
        ∧ ∀ f, f ≠ "name" → f ≠ "updatedAt" →
            lookupField d2.fields f = lookupField d.fields f) := by
  have hupd : updateDocStore w coll (normalizeId i)
      (setField (eraseField data "id") "updatedAt" .sentinelServerTimestamp) = some w2 := h
  refine ⟨updateDocStore_pairs w coll (normalizeId i) _ w2 hupd, ?_, ?_⟩
  · rw [lookupField_setField_ne _ _ _ _ (by decide)]
    exact lookupField_eraseField_self data "id"
  · intro d d2 hdata hfind hfind2
    subst hdata
    have htarget := updateDocStore_target w coll (normalizeId i) _ w2 d hupd hfind
    rw [htarget] at hfind2
    have hd2 := (Option.some.inj hfind2).symm
    subst hd2
    refine ⟨rfl, ?_, ?_, ?_⟩
    · show lookupField (setField (setField d.fields "name" (.str "x"))
        "updatedAt" .sentinelServerTimestamp) "name" = some (.str "x")
      rw [lookupField_setField_ne _ _ _ _ (by decide)]
      exact lookupField_setField_self _ _ _
    · exact lookupField_setField_self _ _ _
    · intro f hf1 hf2
      show lookupField (setField (setField d.fields "name" (.str "x"))
        "updatedAt" .sentinelServerTimestamp) f = lookupField d.fields f
      rw [lookupField_setField_ne _ _ _ _ hf2, lookupField_setField_ne _ _ _ _ hf1]

/-- C8 witness: the theorem at the concrete world `exUsersWorld`, updating
document `a` with `{id:'other', name:'x'}`. -/
theorem static_update_strips_id_witness :
    staticUpdate exUsersWorld ["users"] (.strId "a")
        [("id", .str "other"), ("name", .str "x")] = some exUpdatedWorld
    ∧ exUpdatedWorld.docs.map (fun d => (d.path, d.docId))
        = exUsersWorld.docs.map (fun d => (d.path, d.docId)) :=
  ⟨rfl,
   (static_update_strips_id exUsersWorld ["users"] (.strId "a")
      [("id", .str "other"), ("name", .str "x")] exUpdatedWorld rfl).1⟩

/-- C10: `QueryBuilder.destroy` is an unconditional hard delete (it consults
no soft-delete setting); only the instance `delete()` path branches on
`softDeletes`: with it enabled the instance is kept (`exists` stays true),
`deletedAt` is stamped and the document remains at its address, while with
it disabled the document is hard-removed. -/
theorem builder_deletes_hard_instance_soft :
    (∀ (w : World) (path : List String) (i : String),
        (qbDestroy w path i).docs
          = w.docs.filter (fun d => ¬(d.path = path ∧ d.docId = i)))
    ∧ (∀ (now : Nat) (w : World) (m : MState),
        m.existsF = true → idTruthy m = true → m.softDeletes = true →
        instDelete now w m = performSoftDelete now w m)
    ∧ (∀ (now : Nat) (w : World) (m : MState) (w2 : World) (m2 : MState),
        m.existsF = true →
        performSoftDelete now w m = .ok (w2, m2) →
        m2.existsF = true
        ∧ lookupField m2.attributes "deletedAt" = some (.date now)
        ∧ w2.docs.map (fun d => (d.path, d.docId))
            = w.docs.map (fun d => (d.path, d.docId)))
    ∧ (∀ (now : Nat) (w : World) (m : MState),
        m.existsF = true → idTruthy m = true → m.softDeletes = false →
        instDelete now w m = .ok (performDelete w m)
        ∧ (performDelete w m).1.docs
            = w.docs.filter (fun d => ¬(d.path = m.collection
                ∧ d.docId = normalizeFSId ((idField m).getD .null)))) := by
  refine ⟨?_, ?_, ?_, ?_⟩
  · intro w path i
    rfl
  · intro now w m hex hid hsd
    unfold instDelete
    rw [hex, hid, hsd]
    rfl
  · intro now w m w2 m2 hex hok
    unfold performSoftDelete msave at hok
    have hex2 : (mset m "deletedAt" (.date now)).existsF = true := hex
    rw [if_pos hex2] at hok
    unfold performUpdate at hok
    cases hid : idField (mset m "deletedAt" (.date now)) with
    | none =>
        simp only [hid] at hok
        exact Except.noConfusion hok
    | some idv =>
        simp only [hid] at hok
        cases hupd : updateDocStore w (mset m "deletedAt" (.date now)).collection
            (normalizeFSId idv) (prepareDataForSave (mset m "deletedAt" (.date now)) true) with
        | none =>
            simp only [hupd] at hok
            exact Except.noConfusion hok
        | some w3 =>
            simp only [hupd] at hok
            have hpair := Except.ok.inj hok
            have hw2 : w2 = w3 := (congrArg Prod.fst hpair).symm
            have hm2 : m2 = { mset m "deletedAt" (.date now) with
                original := (mset m "deletedAt" (.date now)).attributes } :=
              (congrArg Prod.snd hpair).symm
            subst hw2
            subst hm2
            exact ⟨hex, lookupField_setField_self _ _ _,
                   updateDocStore_pairs w _ _ _ _ hupd⟩
  · intro now w m hex hid hsd
    refine ⟨?_, rfl⟩
    unfold instDelete
    rw [hex, hid, hsd]
    rfl

/-- C10 witness: the branches at the concrete soft-deleting instance and its
hard-deleting twin. -/
theorem builder_deletes_hard_witness :
    (exSoftInst.existsF = true ∧ idTruthy exSoftInst = true
        ∧ exSoftInst.softDeletes = true)
    ∧ instDelete 42 exGymWorld exSoftInst = performSoftDelete 42 exGymWorld exSoftInst
    ∧ ({ exSoftInst with softDeletes := false }.softDeletes = false
        ∧ instDelete 42 exGymWorld { exSoftInst with softDeletes := false }
            = .ok (performDelete exGymWorld { exSoftInst with softDeletes := false })) :=
  ⟨⟨rfl, rfl, rfl⟩,
   builder_deletes_hard_instance_soft.2.1 42 exGymWorld exSoftInst rfl rfl rfl,
   ⟨rfl,
    (builder_deletes_hard_instance_soft.2.2.2 42 exGymWorld
      { exSoftInst with softDeletes := false } rfl rfl rfl).1⟩⟩

/-- Helper lemmas about the 500-row slicing loop of deleteAll. -/
theorem chunksOf500_flatten {α : Type} : ∀ l : List α, (chunksOf500 l).flatten = l := by
  intro l
  induction l using chunksOf500.induct with
  | case1 => simp [chunksOf500]
  | case2 x xs ih =>
      rw [chunksOf500]
      simp only [List.flatten_cons, ih]
      exact List.take_append_drop _ _

theorem chunksOf500_length {α : Type} : ∀ l : List α,
    (chunksOf500 l).length = (l.length + 499) / 500 := by
  intro l
  induction l using chunksOf500.induct with
  | case1 => simp [chunksOf500]
  | case2 x xs ih =>
      rw [chunksOf500]
      simp only [List.length_cons, ih, List.length_drop, List.length_take]
      omega

theorem chunksOf500_le {α : Type} : ∀ (l : List α) (c : List α),
    c ∈ chunksOf500 l → c.length ≤ 500 := by
  intro l
  induction l using chunksOf500.induct with
  | case1 => intro c hc; simp [chunksOf500] at hc
  | case2 x xs ih =>
      intro c hc
      rw [chunksOf500] at hc
      rcases List.mem_cons.mp hc with h | h
      · subst h; simp [List.length_take]
      · exact ih c h

theorem chunksOf500_sum {α : Type} : ∀ l : List α,
    ((chunksOf500 l).map List.length).sum = l.length := by
  intro l
  induction l using chunksOf500.induct with
  | case1 => simp [chunksOf500]
  | case2 x xs ih =>
      rw [chunksOf500]
      simp only [List.map_cons, List.sum_cons, ih, List.length_drop, List.length_take]
      omega

theorem foldl_add_length {α : Type} : ∀ (chunks : List (List α)) (n : Nat),
    chunks.foldl (fun n c => n + c.length) n = n + (chunks.map List.length).sum := by
  intro chunks
  induction chunks with
  | nil => simp
  | cons c rest ih => intro n; simp [ih, Nat.add_assoc]

/-- Helper: folding single-document deletes over a list of ids removes
exactly the documents at those ids under the path. -/
theorem foldl_delete_ids (path : List String) : ∀ (ids : List String) (w : World),
    ids.foldl (fun aw i => deleteDocStore aw path i) w
      = ⟨w.docs.filter (fun d => ¬(d.path = path ∧ d.docId ∈ ids)), w.nextGen⟩ := by
  intro ids
  induction ids with
  | nil =>
      intro w
      simp
  | cons i rest ih =>
      intro w
      simp only [List.foldl_cons]
      rw [ih]
      unfold deleteDocStore
      simp only [List.filter_filter]
      congr 1
      apply List.filter_congr
      intro d _
      by_cases h1 : d.path = path
      · by_cases h2 : d.docId = i
        · simp [h1, h2]
        · simp [h1, h2]
      · simp [h1]

/-- Helper: the sequential ≤500-document batch commits of deleteAll remove
exactly the snapshotted rows. -/
theorem foldl_delete_batches (path : List String) :
    ∀ (chunks : List (List AttrList)) (w : World),
    chunks.foldl (fun aw c => commitDeleteBatch aw path c) w
      = ⟨w.docs.filter (fun d => ¬(d.path = path
          ∧ d.docId ∈ chunks.flatten.map jsonDocId)), w.nextGen⟩ := by
  intro chunks
  induction chunks with
  | nil =>
      intro w
      simp
  | cons c rest ih =>
      intro w
      simp only [List.foldl_cons]
      have hcommit : commitDeleteBatch w path c
          = ⟨w.docs.filter (fun d => ¬(d.path = path ∧ d.docId ∈ c.map jsonDocId)),
             w.nextGen⟩ := by
        unfold commitDeleteBatch
        rw [← List.foldl_map]
        exact foldl_delete_ids path (c.map jsonDocId) w
      rw [ih, hcommit]
      simp only [List.filter_filter, List.flatten_cons, List.map_append]
      congr 1
      apply List.filter_congr
      intro d _
      by_cases h1 : d.path = path
      · by_cases h2 : d.docId ∈ c.map jsonDocId
        · simp [h1, h2]
        · by_cases h3 : d.docId ∈ rest.flatten.map jsonDocId
          · simp [h1, h2, h3]
          · simp [h1, h2, h3]
      · simp [h1]

/-- C7: `deleteAll()` deletes the N matching documents in sequential rounds
of at most 500, issues exactly ceil(N/500) batch commits (3 for N = 1200,
0 for N = 0), returns N, and removes exactly the matched rows from the
store. -/
theorem deleteAll_batches (w : World) (path : List String)
    (cs : List Constraint) :
    ((qbDeleteAll w path cs).2.2).length = ((qbGet w path cs).length + 499) / 500
    ∧ (∀ c ∈ (qbDeleteAll w path cs).2.2, c.length ≤ 500)
    ∧ (qbDeleteAll w path cs).2.1 = (qbGet w path cs).length
    ∧ (qbDeleteAll w path cs).1.docs
        = w.docs.filter (fun d => ¬(d.path = path
            ∧ d.docId ∈ (qbGet w path cs).map jsonDocId))
    ∧ (((1200 : Nat) + 499) / 500 = 3 ∧ (((0 : Nat) + 499) / 500) = 0) := by
  by_cases hemp : (qbGet w path cs).isEmpty = true
  · have hnil := List.isEmpty_iff.mp hemp
    refine ⟨?_, ?_, ?_, ?_, by decide⟩ <;>
      simp [qbDeleteAll, hnil]
  · refine ⟨?_, ?_, ?_, ?_, by decide⟩
    · simp [qbDeleteAll, hemp, chunksOf500_length]
    · intro c hc
      simp only [qbDeleteAll, hemp, if_false] at hc
      exact chunksOf500_le _ c hc
    · simp [qbDeleteAll, hemp, foldl_add_length, chunksOf500_sum]
    · simp only [qbDeleteAll, hemp, if_false]
      rw [foldl_delete_batches path (chunksOf500 (qbGet w path cs)) w,
          chunksOf500_flatten]
      simp

/-- Helper lemmas decomposing the paginated query pipeline. -/
theorem lastLimit_append_limit_sa (cs : List Constraint) (n : Nat) (c : String) :
    lastLimit (cs ++ [.limitC n] ++ [.startAfterC c]) = some n := by
  unfold lastLimit
  rw [List.filterMap_append, List.filterMap_append]
  simp

theorem lastStartAfter_append_limit (cs : List Constraint) (n : Nat) :
    lastStartAfter (cs ++ [.limitC n]) = lastStartAfter cs := by
  unfold lastStartAfter
  rw [List.filterMap_append]
  simp

theorem lastStartAfter_append_limit_sa (cs : List Constraint) (n : Nat) (c : String) :
    lastStartAfter (cs ++ [.limitC n] ++ [.startAfterC c]) = some c := by
  unfold lastStartAfter
  rw [List.filterMap_append, List.filterMap_append]
  simp

theorem lastEndBefore_append_limit (cs : List Constraint) (n : Nat) :
    lastEndBefore (cs ++ [.limitC n]) = lastEndBefore cs := by
  unfold lastEndBefore
  rw [List.filterMap_append]
  simp

theorem lastEndBefore_append_limit_sa (cs : List Constraint) (n : Nat) (c : String) :
    lastEndBefore (cs ++ [.limitC n] ++ [.startAfterC c]) = lastEndBefore cs := by
  unfold lastEndBefore
  rw [List.filterMap_append, List.filterMap_append]
  simp

theorem orderSpecs_append_limit (cs : List Constraint) (n : Nat) :
    orderSpecs (cs ++ [.limitC n]) = orderSpecs cs := by
  unfold orderSpecs
  rw [List.filterMap_append]
  simp

theorem orderSpecs_append_limit_sa (cs : List Constraint) (n : Nat) (c : String) :
    orderSpecs (cs ++ [.limitC n] ++ [.startAfterC c]) = orderSpecs cs := by
  unfold orderSpecs
  rw [List.filterMap_append, List.filterMap_append]
  simp

theorem filter_pag_limit (cs : List Constraint) (n : Nat)
    (l : List StoredDoc) :
    l.filter (fun d => (cs ++ [Constraint.limitC n]).all (matchesConstraint d)
        && hasOrderFields (orderSpecs (cs ++ [Constraint.limitC n])) d)
      = l.filter (fun d => cs.all (matchesConstraint d)
        && hasOrderFields (orderSpecs cs) d) := by
  apply List.filter_congr
  intro d _
  rw [List.all_append, orderSpecs_append_limit]
  simp [matchesConstraint]

theorem filter_pag_limit_sa (cs : List Constraint) (n : Nat) (c : String)
    (l : List StoredDoc) :
    l.filter (fun d => (cs ++ [Constraint.limitC n] ++ [Constraint.startAfterC c]).all (matchesConstraint d)
        && hasOrderFields (orderSpecs (cs ++ [Constraint.limitC n] ++ [Constraint.startAfterC c])) d)
      = l.filter (fun d => cs.all (matchesConstraint d)
        && hasOrderFields (orderSpecs cs) d) := by
  apply List.filter_congr
  intro d _
  rw [List.all_append, List.all_append, orderSpecs_append_limit_sa]
  simp [matchesConstraint]

theorem runQuery_nocut (cs : List Constraint) (l : List StoredDoc)
    (hS : lastStartAfter cs = none) (hE : lastEndBefore cs = none)
    (hL : lastLimit cs = none) :
    runQuery cs l = sortDocs (docLe (orderSpecs cs))
      (l.filter (fun d => cs.all (matchesConstraint d)
        && hasOrderFields (orderSpecs cs) d)) := by
  unfold runQuery
  rw [hS, hE, hL]


theorem runQuery_pag_none (cs : List Constraint) (n : Nat) (l : List StoredDoc)
    (hS : lastStartAfter cs = none) (hE : lastEndBefore cs = none)
    (hL : lastLimit cs = none) :
    runQuery (cs ++ [.limitC n]) l = (runQuery cs l).take n := by
  rw [runQuery_nocut cs l hS hE hL]
  unfold runQuery
  rw [lastStartAfter_append_limit, hS, lastEndBefore_append_limit, hE,
      lastLimit_append_limit, filter_pag_limit, orderSpecs_append_limit]

theorem runQuery_pag_some (cs : List Constraint) (n : Nat) (c : String)
    (l : List StoredDoc)
    (hS : lastStartAfter cs = none) (hE : lastEndBefore cs = none)
    (hL : lastLimit cs = none) :
    runQuery (cs ++ [.limitC n] ++ [.startAfterC c]) l
      = (afterDoc c (runQuery cs l)).take n := by
  rw [runQuery_nocut cs l hS hE hL]
  unfold runQuery
  rw [lastStartAfter_append_limit_sa, lastEndBefore_append_limit_sa, hE,
      lastLimit_append_limit_sa, filter_pag_limit_sa, orderSpecs_append_limit_sa]

theorem afterDoc_cons_ne (x : String) (d : StoredDoc) (S : List StoredDoc)
    (h : d.docId ≠ x) : afterDoc x (d :: S) = afterDoc x S := by
  unfold afterDoc
  rw [List.dropWhile_cons, if_pos (by simpa using h)]

theorem afterDoc_cons_self (d : StoredDoc) (S : List StoredDoc) :
    afterDoc d.docId (d :: S) = S := by
  unfold afterDoc
  rw [List.dropWhile_cons, if_neg (by simp)]

theorem afterDoc_take_getLast (x : StoredDoc) :
    ∀ (k : Nat) (S : List StoredDoc), k ≤ S.length →
    (S.map (fun d => d.docId)).Nodup →
    (S.take k).getLast? = some x →
    afterDoc x.docId S = S.drop k := by
  intro k
  induction k with
  | zero =>
      intro S _ _ hlast
      simp at hlast
  | succ k' ih =>
      intro S hk hnd hlast
      cases S with
      | nil => simp at hk
      | cons d S' =>
          rw [List.take_succ_cons] at hlast
          by_cases h0 : S'.take k' = []
          · rw [h0] at hlast
            have hxd : x = d := by
              simpa using hlast.symm
            subst hxd
            rw [afterDoc_cons_self]
            rcases List.take_eq_nil_iff.mp h0 with h1 | h1
            · rw [h1]
              rfl
            · rw [h1]
              simp
          · have hnd2 : (∀ y ∈ S', ¬y.docId = d.docId)
                ∧ (S'.map (fun d => d.docId)).Nodup := by
              simpa using hnd
            have hlast2 : (S'.take k').getLast? = some x := by
              cases hx : S'.take k' with
              | nil => exact absurd hx h0
              | cons e t =>
                  rw [hx] at hlast
                  rw [List.getLast?_cons_cons] at hlast
                  exact hlast
            have hxmem : x ∈ S' := List.mem_of_mem_take (List.mem_of_getLast?_eq_some hlast2)
            have hne : x.docId ≠ d.docId := hnd2.1 x hxmem
            rw [afterDoc_cons_ne x.docId d S' (Ne.symm hne)]
            rw [List.drop_succ_cons]
            exact ih S' (by simpa using hk) hnd2.2 hlast2

theorem simplePaginate_char (w : World) (path : List String)
    (cs : List Constraint) (P : Nat) (cursor : Option String)
    (R : List StoredDoc)
    (hsnap : runQuery (cs ++ [.limitC (P + 1)]
        ++ (match cursor with
            | some c => [.startAfterC c]
            | none => [])) (docsAt w path) = R.take (P + 1)) :
    (simplePaginate w path cs P cursor).data = ((R.take P).map docToJSON)
    ∧ (simplePaginate w path cs P cursor).hasMorePages = decide (P < R.length)
    ∧ (simplePaginate w path cs P cursor).nextCursor
        = (if P < R.length
           then (R.take P).getLast?.map (fun d => d.docId)
           else none) := by
  simp only [simplePaginate]
  rw [hsnap]
  by_cases hlt : P < R.length
  · have hm : decide ((R.take (P + 1)).length > P) = true := by
      rw [List.length_take]
      simp
      omega
    rw [hm]
    simp only [if_true, if_pos hlt]
    refine ⟨?_, ?_, ?_⟩
    · rw [List.take_take]
      congr 2
      omega
    · simp [hlt]
    · rw [List.take_take]
      congr 3
      omega
  · have hm : decide ((R.take (P + 1)).length > P) = false := by
      rw [List.length_take]
      simp
      omega
    rw [hm]
    simp only [if_false, if_neg hlt]
    have htk : R.take (P + 1) = R := List.take_of_length_le (by omega)
    have htk2 : R.take P = R := List.take_of_length_le (by omega)
    rw [htk, htk2]
    refine ⟨rfl, ?_, rfl⟩
    simp [hlt]

theorem simplePaginate_suffix (w : World) (path : List String)
    (cs : List Constraint) (P : Nat)
    (hS : lastStartAfter cs = none) (hE : lastEndBefore cs = none)
    (hL : lastLimit cs = none) (cursor : Option String) (k : Nat)
    (hres : (match cursor with
             | none => runQuery cs (docsAt w path)
             | some c => afterDoc c (runQuery cs (docsAt w path)))
        = (runQuery cs (docsAt w path)).drop k) :
    (simplePaginate w path cs P cursor).data
        = ((((runQuery cs (docsAt w path)).drop k).take P).map docToJSON)
    ∧ (simplePaginate w path cs P cursor).hasMorePages
        = decide (P < ((runQuery cs (docsAt w path)).drop k).length)
    ∧ (simplePaginate w path cs P cursor).nextCursor
        = (if P < ((runQuery cs (docsAt w path)).drop k).length
           then (((runQuery cs (docsAt w path)).drop k).take P).getLast?.map
             (fun d => d.docId)
           else none) := by
  apply simplePaginate_char
  cases cursor with
  | none =>
      have hres2 : runQuery cs (docsAt w path)
          = (runQuery cs (docsAt w path)).drop k := hres
      show runQuery (cs ++ [Constraint.limitC (P + 1)] ++ []) (docsAt w path) = _
      rw [List.append_nil, runQuery_pag_none cs (P + 1) _ hS hE hL]
      conv_lhs => rw [hres2]
  | some c =>
      have hres2 : afterDoc c (runQuery cs (docsAt w path))
          = (runQuery cs (docsAt w path)).drop k := hres
      show runQuery (cs ++ [Constraint.limitC (P + 1)]
          ++ [Constraint.startAfterC c]) (docsAt w path) = _
      rw [runQuery_pag_some cs (P + 1) c _ hS hE hL, hres2]

theorem take_add_decomp {α : Type} (l : List α) (m n : Nat) :
    l.take (m + n) = l.take m ++ (l.drop m).take n := by
  rw [List.take_drop]
  conv_lhs => rw [← List.take_append_drop m (l.take (m + n))]
  congr 1
  rw [List.take_take]
  congr 1
  omega

theorem spChain_suffix (w : World) (path : List String)
    (cs : List Constraint) (P : Nat) (hP : 1 ≤ P)
    (hS : lastStartAfter cs = none) (hE : lastEndBefore cs = none)
    (hL : lastLimit cs = none)
    (hnd : ((runQuery cs (docsAt w path)).map (fun d => d.docId)).Nodup) :
    ∀ (fuel : Nat) (cursor : Option String) (k : Nat), 1 ≤ fuel →
    (runQuery cs (docsAt w path)).length - k ≤ fuel * P →
    (match cursor with
     | none => runQuery cs (docsAt w path)
     | some c => afterDoc c (runQuery cs (docsAt w path)))
      = (runQuery cs (docsAt w path)).drop k →
    spChain w path cs P fuel cursor
      = ((runQuery cs (docsAt w path)).drop k).map docToJSON := by
  intro fuel
  induction fuel with
  | zero =>
      intro cursor k hf
      omega
  | succ f ih =>
      intro cursor k _ hbound hres
      have hchar := simplePaginate_suffix w path cs P hS hE hL cursor k hres
      by_cases hlt : P < ((runQuery cs (docsAt w path)).drop k).length
      · have hm : (simplePaginate w path cs P cursor).hasMorePages = true := by
          rw [hchar.2.1]
          simpa using hlt
        have hne : ((runQuery cs (docsAt w path)).drop k).take P ≠ [] := by
          intro habs
          have hlen := congrArg List.length habs
          rw [List.length_take] at hlen
          simp only [List.length_nil] at hlen
          omega
        obtain ⟨x, hx⟩ : ∃ x, (((runQuery cs (docsAt w path)).drop k).take P).getLast?
            = some x := by
          rcases hgl : (((runQuery cs (docsAt w path)).drop k).take P).getLast? with _ | y
          · exact absurd (List.getLast?_eq_none_iff.mp hgl) hne
          · exact ⟨y, rfl⟩
        have hcur : (simplePaginate w path cs P cursor).nextCursor = some x.docId := by
          rw [hchar.2.2, if_pos hlt, hx]
          rfl
        have hklen : k + P ≤ (runQuery cs (docsAt w path)).length := by
          have := List.length_drop k (runQuery cs (docsAt w path))
          omega
        have htake : ((runQuery cs (docsAt w path)).take (k + P)).getLast? = some x := by
          rw [take_add_decomp, List.getLast?_append, hx]
          rfl
        have hafter : afterDoc x.docId (runQuery cs (docsAt w path))
            = (runQuery cs (docsAt w path)).drop (k + P) :=
          afterDoc_take_getLast x (k + P) (runQuery cs (docsAt w path)) hklen hnd htake
        have hf1 : 1 ≤ f := by
          by_contra hf0
          have hf2 : f = 0 := by omega
          rw [hf2] at hbound
          rw [List.length_drop] at hlt
          have hb2 : (runQuery cs (docsAt w path)).length - k ≤ P := by
            calc (runQuery cs (docsAt w path)).length - k ≤ (0 + 1) * P := hbound
            _ = P := by ring
          omega
        have hbound2 : (runQuery cs (docsAt w path)).length - (k + P) ≤ f * P := by
          have hsm : (f + 1) * P = f * P + P := Nat.succ_mul f P
          rw [hsm] at hbound
          omega
        simp only [spChain]
        rw [hm]
        simp only [if_true]
        rw [hchar.1, hcur]
        have hres3 : (match some x.docId with
            | none => runQuery cs (docsAt w path)
            | some c => afterDoc c (runQuery cs (docsAt w path)))
          = (runQuery cs (docsAt w path)).drop (k + P) := hafter
        rw [ih (some x.docId) (k + P) hf1 hbound2 hres3]
        rw [← List.drop_drop, ← List.map_append, List.take_append_drop]
      · have hm : (simplePaginate w path cs P cursor).hasMorePages = false := by
          rw [hchar.2.1]
          simpa using hlt
        simp only [spChain]
        rw [hm]
        simp only [Bool.false_eq_true, if_false]
        rw [hchar.1]
        rw [List.take_of_length_le (by omega)]

/-- C6: chaining simplePaginate via nextCursor until hasMorePages is false
returns exactly the full filtered set in query order (no duplicates, no
omissions); on each call hasMorePages is true iff more than perPage rows
remain past the cursor, and nextCursor is the last row of the trimmed page
(none on the final page).  Hypotheses: a positive perPage (with perPage = 0
the loop never terminates), a builder holding only filter/order constraints
(no limit or cursor), and distinct document ids (unique within a
collection). -/
theorem simplePaginate_chain_exact (w : World) (path : List String)
    (cs : List Constraint) (P : Nat) (hP : 1 ≤ P)
    (hS : lastStartAfter cs = none) (hE : lastEndBefore cs = none)
    (hL : lastLimit cs = none)
    (hnd : ((runQuery cs (docsAt w path)).map (fun d => d.docId)).Nodup) :
    spChain w path cs P ((runQuery cs (docsAt w path)).length + 1) none
        = (runQuery cs (docsAt w path)).map docToJSON
    ∧ ∀ (cursor : Option String) (k : Nat),
        (match cursor with
         | none => runQuery cs (docsAt w path)
         | some c => afterDoc c (runQuery cs (docsAt w path)))
          = (runQuery cs (docsAt w path)).drop k →
        ((simplePaginate w path cs P cursor).hasMorePages
            = decide (P < ((runQuery cs (docsAt w path)).drop k).length)
        ∧ (simplePaginate w path cs P cursor).data
            = (((runQuery cs (docsAt w path)).drop k).take P).map docToJSON
        ∧ (simplePaginate w path cs P cursor).nextCursor
            = (if P < ((runQuery cs (docsAt w path)).drop k).length
               then (((runQuery cs (docsAt w path)).drop k).take P).getLast?.map
                 (fun d => d.docId)
               else none)) := by
  constructor
  · have hbound : (runQuery cs (docsAt w path)).length - 0
        ≤ ((runQuery cs (docsAt w path)).length + 1) * P := by
      calc (runQuery cs (docsAt w path)).length - 0
          ≤ ((runQuery cs (docsAt w path)).length + 1) * 1 := by omega
        _ ≤ ((runQuery cs (docsAt w path)).length + 1) * P :=
          Nat.mul_le_mul_left _ hP
    have hres : (match (none : Option String) with
        | none => runQuery cs (docsAt w path)
        | some c => afterDoc c (runQuery cs (docsAt w path)))
          = (runQuery cs (docsAt w path)).drop 0 :=
      (List.drop_zero _).symm
    have h := spChain_suffix w path cs P hP hS hE hL hnd
      ((runQuery cs (docsAt w path)).length + 1) none 0 (by omega) hbound hres
    rw [List.drop_zero] at h
    exact h
  · intro cursor k hres
    have hchar := simplePaginate_suffix w path cs P hS hE hL cursor k hres
    exact ⟨hchar.2.1, hchar.1, hchar.2.2⟩

/-- C6 witness: the chain over the five-document store with perPage 2 —
three pages (2 + 2 + 1 rows) concatenating to the whole collection. -/
theorem simplePaginate_chain_witness :
    ((1 : Nat) ≤ 2
      ∧ lastStartAfter ([] : List Constraint) = none
      ∧ ((runQuery [] (docsAt exUsersWorld ["users"])).map (fun d => d.docId)).Nodup)
    ∧ spChain exUsersWorld ["users"] [] 2
        ((runQuery [] (docsAt exUsersWorld ["users"])).length + 1) none
        = (runQuery [] (docsAt exUsersWorld ["users"])).map docToJSON
    ∧ (simplePaginate exUsersWorld ["users"] [] 2 none).hasMorePages
        = decide (2 < ((runQuery [] (docsAt exUsersWorld ["users"])).drop 0).length) :=
  ⟨⟨by decide, rfl, by
      have hq : runQuery [] (docsAt exUsersWorld ["users"]) = exUsersWorld.docs := by
        decide
      rw [hq]
      decide⟩,
   (simplePaginate_chain_exact exUsersWorld ["users"] [] 2 (by decide)
      rfl rfl rfl (by
        have hq : runQuery [] (docsAt exUsersWorld ["users"]) = exUsersWorld.docs := by
          decide
        rw [hq]
        decide)).1,
   ((simplePaginate_chain_exact exUsersWorld ["users"] [] 2 (by decide)
      rfl rfl rfl (by
        have hq : runQuery [] (docsAt exUsersWorld ["users"]) = exUsersWorld.docs := by
          decide
        rw [hq]
        decide)).2 none 0 ((List.drop_zero _).symm)).1⟩
